import Mathlib

/-!
Verification development for `src/path/dynamics.py` of the repository
`niranjchandrasekaran/path`.

The Python file defines two classes:

* `Time`, with `time_to_transition_state` (spectral reduction of a Hessian
  eigenvalue list to an effective force constant and a transit time) and
  `time_steps` (the time/energy schedule of the trajectory);
* `Transition`, whose constructor computes the transition-state data
  (`transition_state`) and then the interpolated trajectory (`trajectory`).

Modelling conventions.

* Finite floating-point values are idealised as exact rationals (`ℚ`) in the
  purely arithmetic pipeline of `Time.time_to_transition_state`, wrapped in
  the four-constructor type `FVal` so that the IEEE special values produced by
  `numpy` on division by zero (`inf`, `-inf`, `nan`) are represented
  faithfully: `np.reciprocal(0.0) = inf`, `x / 0.0 = ±inf` for `x ≠ 0`,
  `0.0 / 0.0 = nan`, `inf / inf = nan`, and comparisons with `nan` are false.
* `Time.time_steps` and the `Transition` solver use transcendental functions
  (`log`, `sinh`, `cosh`, `exp`), so they are embedded over `ℝ`; the ratio
  sequence built by `time_steps` is exact rational arithmetic and is kept in
  `ℚ` so that the `ratio[step] == 0` tests of the source are decidable.
* In exact real arithmetic `sinh` is total and finite, so the
  `except OverflowError` fallback branches of `Transition.trajectory` are
  unreachable in the model; the `try` expression is used unconditionally.
* `numpy` row conventions: `np.dot(matrix, vector)` is `*ᵥ` (`mulVec`),
  `np.dot(vector, matrix)` is `ᵥ*` (`vecMul`), `np.dot(v.T, w)` on vectors is
  the dot product `⬝ᵥ`.
* `np.linalg.inv` raises on a singular argument; the model uses Mathlib's
  nonsingular inverse (which returns the zero matrix on singular input) and
  every theorem that touches `xbar` establishes invertibility explicitly.
* The external collaborators of the core (`Constant.dim` and
  `ThermoDynamics.work` live in modules of this repository that are outside
  `src/`) are treated as parameters: the matrix dimension `n` stands for
  `natoms * Constant().dim`, and the thermodynamic work function is an
  arbitrary argument `work` of the solver.
-/

namespace PathDynamics

/-! ### A model of IEEE double values over exact rationals

`FVal.fin q` is a finite double idealised as the rational `q`; the other three
constructors are the special values that `numpy` produces on the (warning,
not error) divisions by zero in `Time.time_to_transition_state`. -/

inductive FVal where
  | fin : ℚ → FVal
  | inf : FVal
  | neginf : FVal
  | nan : FVal
deriving DecidableEq, Repr

/-- IEEE addition on the modelled values. -/
def fadd : FVal → FVal → FVal
  | .nan, _ => .nan
  | _, .nan => .nan
  | .fin a, .fin b => .fin (a + b)
  | .fin _, .inf => .inf
  | .fin _, .neginf => .neginf
  | .inf, .fin _ => .inf
  | .inf, .inf => .inf
  | .inf, .neginf => .nan
  | .neginf, .fin _ => .neginf
  | .neginf, .inf => .nan
  | .neginf, .neginf => .neginf

/-- IEEE division on the modelled values (the only zeros in play are the
positive zeros of Python literals, so `x / 0` carries the sign of `x`). -/
def fdiv : FVal → FVal → FVal
  | .nan, _ => .nan
  | _, .nan => .nan
  | .fin a, .fin b =>
      if b ≠ 0 then .fin (a / b)
      else if 0 < a then .inf
      else if a < 0 then .neginf
      else .nan
  | .fin _, .inf => .fin 0
  | .fin _, .neginf => .fin 0
  | .inf, .fin b => if 0 ≤ b then .inf else .neginf
  | .neginf, .fin b => if 0 ≤ b then .neginf else .inf
  | .inf, .inf => .nan
  | .inf, .neginf => .nan
  | .neginf, .inf => .nan
  | .neginf, .neginf => .nan

/-- IEEE comparison `x < q` against a finite constant (`nan` compares false,
as in the `numpy` boolean array `cumulative < 0.95`). -/
def fltQ : FVal → ℚ → Bool
  | .fin a, q => decide (a < q)
  | .inf, _ => false
  | .neginf, _ => true
  | .nan, _ => false

/-- IEEE comparison `q ≤ x` against a finite constant (`nan` compares false). -/
def fgeQ : FVal → ℚ → Bool
  | .fin a, q => decide (q ≤ a)
  | .inf, _ => true
  | .neginf, _ => false
  | .nan, _ => false

/-- `np.cumsum` with explicit accumulator: the list of running sums. -/
def cumsumFrom (acc : FVal) : List FVal → List FVal
  | [] => []
  | x :: xs => fadd acc x :: cumsumFrom (fadd acc x) xs

/-- Rational cumulative sums: the image of `cumsumFrom` on lists of finite
values. -/
def cumsumQ (acc : ℚ) : List ℚ → List ℚ
  | [] => []
  | x :: xs => (acc + x) :: cumsumQ (acc + x) xs

/-- `np.argmin` on a boolean array: index of the first occurrence of the
minimum value (`False < True`); `0` when every entry is `True`.  `np.argmin`
raises `ValueError` on an empty array; callers guard for that case. -/
def argminBool (l : List Bool) : ℕ :=
  if false ∈ l then l.findIdx (fun b => !b) else 0

/-- The skip count of `Time.time_to_transition_state`
(`dynamics.py` lines 20-23): 6 when the spectrum has more than 6 entries,
else 5. -/
def skipCount (eigenvalue : List ℚ) : ℕ :=
  if eigenvalue.length > 6 then 6 else 5

/-- `Time.time_to_transition_state` (`dynamics.py` lines 13-33).

    reciprocal = np.reciprocal([eigenvalue[i] for i in range(skip, len)])
    cumulative = np.cumsum(reciprocal) / np.sum(reciprocal)
    cutoff_id = np.argmin(cumulative < 0.95)
    average_force_constant = 1.0 / (cumulative[cutoff_id] / cutoff_id + 1)
    return 7.0 / average_force_constant, average_force_constant

The result is `none` exactly when `np.argmin` is applied to an empty array
(spectrum of length at most the skip count), which raises `ValueError` in
Python; otherwise it is the returned pair. -/
def time_to_transition_state (eigenvalue : List ℚ) : Option (FVal × FVal) :=
  let retained := eigenvalue.drop (skipCount eigenvalue)
  let reciprocal := retained.map (fun e => fdiv (.fin 1) (.fin e))
  let total := reciprocal.foldl fadd (.fin 0)
  let cumulative := (cumsumFrom (.fin 0) reciprocal).map (fun c => fdiv c total)
  let bools := cumulative.map (fun c => fltQ c (95/100))
  if bools.isEmpty then none
  else
    let cutoff_id := argminBool bools
    let average_force_constant :=
      fdiv (.fin 1)
        (fadd (fdiv (cumulative.getD cutoff_id .nan) (.fin (cutoff_id : ℚ))) (.fin 1))
    some (fdiv (.fin 7) average_force_constant, average_force_constant)

/-- Modelled from the spec (claim C8 wording, spec section 4.1): skip the
first 6 eigenvalues when the spectrum length exceeds 6 and the first 5
otherwise; take reciprocals of the retained eigenvalues; form their
cumulative sum divided by their total; take the cutoff index as the FIRST
index at which the cumulative fraction reaches or exceeds 0.95; set
`average_force_constant = 1 / (cumulative[cutoff_index] / cutoff_index + 1)`
and return `(7 / average_force_constant, average_force_constant)`.  The
arithmetic is interpreted in the same IEEE value model as the code. -/
def spec_time_to_transition_state (eigenvalue : List ℚ) : Option (FVal × FVal) :=
  let skip := if eigenvalue.length > 6 then 6 else 5
  let reciprocal := (eigenvalue.drop skip).map (fun e => fdiv (.fin 1) (.fin e))
  let total := reciprocal.foldl fadd (.fin 0)
  let cumulative := (cumsumFrom (.fin 0) reciprocal).map (fun c => fdiv c total)
  if cumulative.isEmpty then none
  else
    let cutoff_id := cumulative.findIdx (fun c => fgeQ c (95/100))
    let average_force_constant :=
      fdiv (.fin 1)
        (fadd (fdiv (cumulative.getD cutoff_id .nan) (.fin (cutoff_id : ℚ))) (.fin 1))
    some (fdiv (.fin 7) average_force_constant, average_force_constant)

/-! ### The time/energy schedule of `Time.time_steps`

The ratio sequence (`dynamics.py` lines 48-66) is exact rational arithmetic:
`step_size = 2.0 / (intermediate + 1)`, the running value is folded through
`2.0 - current` once it reaches `1.0`, and the sequence is bracketed by the
two endpoint zeros. -/

/-- One ratio entry: `2.0 - current if current >= 1.0 else current`. -/
def ratioFold (current : ℚ) : ℚ :=
  if 1 ≤ current then 2 - current else current

/-- The loop `for step in range(intermediate)` appending folded ratios while
incrementing `current_step_size` by `step_size`. -/
def ratioSteps (step_size : ℚ) : ℚ → ℕ → List ℚ
  | _, 0 => []
  | current, k + 1 => ratioFold current :: ratioSteps step_size (current + step_size) k

/-- The full ratio list of `Time.time_steps`: `[0]`, the `intermediate`
folded interior entries, then the trailing `0`.  (`intermediate = nconf - 2`;
for the claims `nconf ≥ 2`, where truncated `ℕ` subtraction agrees with
Python.) -/
def ratioList (nconf : ℕ) : List ℚ :=
  let intermediate := nconf - 2
  let step_size : ℚ := 2 / ((intermediate : ℚ) + 1)
  (0 : ℚ) :: (ratioSteps step_size step_size intermediate ++ [0])

/-- The time appended for index `step` (`dynamics.py` lines 69-86).  The
Python test `step <= nconf / 2` is exact float arithmetic on small integers,
i.e. the rational comparison `step ≤ nconf / 2`. -/
noncomputable def timeOfStep (tbar_left tbar_right fc_left fc_right : ℝ)
    (nconf step : ℕ) (r : ℚ) : ℝ :=
  if (step : ℚ) ≤ (nconf : ℚ) / 2 then
    if r = 0 then 0 else (7 + Real.log (r : ℝ)) / fc_left
  else
    if r = 0 then tbar_left + tbar_right
    else (tbar_left + tbar_right) - (7 + Real.log (r : ℝ)) / fc_right

/-- The energy appended for index `step` (`dynamics.py` lines 69-86). -/
def energyOfStep (energy_left energy_right : ℝ) (nconf step : ℕ) (r : ℚ) : ℝ :=
  if (step : ℚ) ≤ (nconf : ℚ) / 2 then
    if r = 0 then 0 + (energy_right - energy_left)
    else (r : ℝ) * energy_left + (energy_right - energy_left)
  else
    if r = 0 then 0 else (r : ℝ) * energy_right

/-- The time series of `Time.time_steps`: the single Python loop over
`range(nconf)` is split into its two independent per-index components. -/
noncomputable def timesList (tbar_left tbar_right fc_left fc_right : ℝ)
    (nconf : ℕ) : List ℝ :=
  (List.range nconf).map fun step =>
    timeOfStep tbar_left tbar_right fc_left fc_right nconf step
      ((ratioList nconf).getD step 0)

/-- The energy series of `Time.time_steps`. -/
noncomputable def energiesList (energy_left energy_right : ℝ) (nconf : ℕ) : List ℝ :=
  (List.range nconf).map fun step =>
    energyOfStep energy_left energy_right nconf step ((ratioList nconf).getD step 0)

/-- `Time.time_steps` (`dynamics.py` lines 35-86): the pair
`(t, energy)` of the time and relative-energy schedules. -/
noncomputable def time_steps (tbar_left tbar_right fc_left fc_right
    energy_left energy_right : ℝ) (nconf : ℕ) : List ℝ × List ℝ :=
  (timesList tbar_left tbar_right fc_left fc_right nconf,
   energiesList energy_left energy_right nconf)

/-! ### The `Transition` solver (`dynamics.py` lines 89-232)

Vectors are `Fin n → ℝ` and matrices `Matrix (Fin n) (Fin n) ℝ`, where
`n = natoms * Constant().dim` is the total number of Cartesian dimensions.
The thermodynamic work collaborator is a parameter `work`. -/

noncomputable section

open Matrix

/-- Diagonal entry of `b_left` (`dynamics.py` lines 149-160): initialised to
the eigenvalue, overwritten to `1 / tbar_left` for a near-zero mode, to
`eigenvalue * cosh / sinh` inside the overflow guard, and left as the
eigenvalue outside it. -/
def bLeftDiag (tbar_left : ℝ) (e : ℝ) : ℝ :=
  if e < 0.000001 then 1 / tbar_left
  else if e * tbar_left < 700 ∧ -700 < e * tbar_left then
    e * Real.cosh (e * tbar_left) / Real.sinh (e * tbar_left)
  else e

/-- Diagonal entry of `s_left` (`dynamics.py` lines 152-160): initialised to
`0`, overwritten to `b_left[i][i] = 1 / tbar_left` for a near-zero mode and
to `eigenvalue * exp / sinh` inside the overflow guard. -/
def sLeftDiag (tbar_left : ℝ) (e : ℝ) : ℝ :=
  if e < 0.000001 then 1 / tbar_left
  else if e * tbar_left < 700 ∧ -700 < e * tbar_left then
    e * Real.exp (e * tbar_left) / Real.sinh (e * tbar_left)
  else 0

/-- Diagonal entry of `a_right` (`dynamics.py` lines 150, 161-169):
initialised to the negated eigenvalue, overwritten to
`1 / (tbar_left - tf)` for a near-zero mode and to the hyperbolic form at
argument `eigenvalue * (tbar_left - tf)` inside the overflow guard. -/
def aRightDiag (tbar_left tf : ℝ) (e : ℝ) : ℝ :=
  if e < 0.000001 then 1 / (tbar_left - tf)
  else if -700 < e * (tbar_left - tf) ∧ e * (tbar_left - tf) < 700 then
    e * Real.cosh (e * (tbar_left - tf)) / Real.sinh (e * (tbar_left - tf))
  else -e

/-- Diagonal entry of `s_right` (`dynamics.py` lines 161-169): `-a_right` for
a near-zero mode and `eigenvalue * exp / sinh` at argument
`eigenvalue * (tf - tbar_left)` inside the overflow guard. -/
def sRightDiag (tbar_left tf : ℝ) (e : ℝ) : ℝ :=
  if e < 0.000001 then -(1 / (tbar_left - tf))
  else if -700 < e * (tbar_left - tf) ∧ e * (tbar_left - tf) < 700 then
    e * Real.exp (e * (tf - tbar_left)) / Real.sinh (e * (tf - tbar_left))
  else 0

/-- The in-place clamp performed by `transition_state` on the caller's
eigenvalue arrays: `self.eval1[i] = 0` whenever `self.eval1[i] < 0.000001`
(`dynamics.py` lines 153-156, 163-166). -/
def clampedEval (e : ℝ) : ℝ := if e < 0.000001 then 0 else e

/-- `den1 = np.dot(evec1, np.dot(b_left, evec1.T))` (`dynamics.py` line 171). -/
def denLeft {n : ℕ} (tbar_left : ℝ) (eval_left : Fin n → ℝ)
    (evec_left : Matrix (Fin n) (Fin n) ℝ) : Matrix (Fin n) (Fin n) ℝ :=
  evec_left * Matrix.diagonal (fun i => bLeftDiag tbar_left (eval_left i)) * evec_leftᵀ

/-- `den2 = np.dot(evec2, np.dot(a_right, evec2.T))` (`dynamics.py` line 172). -/
def denRight {n : ℕ} (tbar_left tf : ℝ) (eval_right : Fin n → ℝ)
    (evec_right : Matrix (Fin n) (Fin n) ℝ) : Matrix (Fin n) (Fin n) ℝ :=
  evec_right * Matrix.diagonal (fun i => aRightDiag tbar_left tf (eval_right i)) * evec_rightᵀ

/-- `s_left_matrix = np.dot(evec1, np.dot(s_left, evec1.T))`
(`dynamics.py` line 185). -/
def sLeftMatrix {n : ℕ} (tbar_left : ℝ) (eval_left : Fin n → ℝ)
    (evec_left : Matrix (Fin n) (Fin n) ℝ) : Matrix (Fin n) (Fin n) ℝ :=
  evec_left * Matrix.diagonal (fun i => sLeftDiag tbar_left (eval_left i)) * evec_leftᵀ

/-- `s_right_matrix = np.dot(evec2, np.dot(s_right, evec2.T))`
(`dynamics.py` line 186). -/
def sRightMatrix {n : ℕ} (tbar_left tf : ℝ) (eval_right : Fin n → ℝ)
    (evec_right : Matrix (Fin n) (Fin n) ℝ) : Matrix (Fin n) (Fin n) ℝ :=
  evec_right * Matrix.diagonal (fun i => sRightDiag tbar_left tf (eval_right i)) * evec_rightᵀ

/-- The transition-state solve (`dynamics.py` lines 171-181):
`xbar = np.dot(num1 - num2, np.linalg.inv(den1 - den2))`. -/
def xbarOf {n : ℕ} (tbar_left tbar_right : ℝ) (eval_left eval_right : Fin n → ℝ)
    (evec_left evec_right : Matrix (Fin n) (Fin n) ℝ)
    (coord_left coord_right : Fin n → ℝ) : Fin n → ℝ :=
  let tf := tbar_left + tbar_right
  let den1 := denLeft tbar_left eval_left evec_left
  let den2 := denRight tbar_left tf eval_right evec_right
  ((den1 *ᵥ coord_left) - (den2 *ᵥ coord_right)) ᵥ* (den1 - den2)⁻¹

/-- One diagonal interpolation weight of `Transition.trajectory`
(`dynamics.py` lines 204-221), evaluated on the clamped eigenvalues.  In
exact real arithmetic `sinh` never overflows, so the `except OverflowError`
fallbacks of the source are unreachable. -/
def trajWeight {n : ℕ} (tbar_left tbar_right tf : ℝ) (eval1 eval2 : Fin n → ℝ)
    (t : ℝ) (i : Fin n) : ℝ :=
  if t < tbar_left then
    if eval1 i < 0.000001 then t / tbar_left
    else Real.sinh (eval1 i * t) / Real.sinh (eval1 i * tbar_left)
  else
    if eval2 i < 0.000001 then (tf - t) / tbar_right
    else -(Real.sinh (eval2 i * (t - tf)) / Real.sinh (eval2 i * tbar_right))

/-- One trajectory entry (`dynamics.py` lines 223-226): the weight matrix is
projected with the selected side's eigenvectors, applied to that side's work
vector, and the side's coordinates are added. -/
def trajStep {n : ℕ} (tbar_left tbar_right tf : ℝ) (eval1 eval2 : Fin n → ℝ)
    (evec1 evec2 : Matrix (Fin n) (Fin n) ℝ)
    (work_left work_right coord_left coord_right : Fin n → ℝ) (t : ℝ) :
    Fin n → ℝ :=
  if t < tbar_left then
    (evec1 * Matrix.diagonal (trajWeight tbar_left tbar_right tf eval1 eval2 t) * evec1ᵀ)
      *ᵥ work_left + coord_left
  else
    (evec2 * Matrix.diagonal (trajWeight tbar_left tbar_right tf eval1 eval2 t) * evec2ᵀ)
      *ᵥ work_right + coord_right

/-- The observable data of a constructed `Transition` object.  The first six
fields are the values of the borrowed arrays after construction: the source
aliases the caller's arrays (`self.eval1 = eval_left`, ...), so every
in-place write of the constructor is a write to the caller's data, and the
mutation of `transition_state` is recorded by state passing in `eval1` /
`eval2`. -/
structure TransitionData (n : ℕ) where
  eval1 : Fin n → ℝ
  eval2 : Fin n → ℝ
  evec1 : Matrix (Fin n) (Fin n) ℝ
  evec2 : Matrix (Fin n) (Fin n) ℝ
  coord_left : Fin n → ℝ
  coord_right : Fin n → ℝ
  xbar : Fin n → ℝ
  work_left : Fin n → ℝ
  work_right : Fin n → ℝ
  action_left : ℝ
  action_right : ℝ
  trajectory_coord : List (Fin n → ℝ)

/-- `Transition.__init__` (`dynamics.py` lines 117-130): stores the inputs,
runs `transition_state` (which clamps the eigenvalue arrays in place and
computes `xbar`, the work vectors and the actions), then runs `trajectory`
on the clamped eigenvalues.  `fc_left` / `fc_right` are stored (`self.kl`,
`self.kr`) but never used by either computation. -/
def mkTransition {n : ℕ}
    (work : (Fin n → ℝ) → (Fin n → ℝ) → (Fin n → ℝ))
    (tbar_left tbar_right fc_left fc_right : ℝ)
    (eval_left eval_right : Fin n → ℝ)
    (evec_left evec_right : Matrix (Fin n) (Fin n) ℝ)
    (coord_left coord_right : Fin n → ℝ)
    (t_series : List ℝ) : TransitionData n :=
  let _ := fc_left
  let _ := fc_right
  let tf := tbar_left + tbar_right
  let xbar := xbarOf tbar_left tbar_right eval_left eval_right
    evec_left evec_right coord_left coord_right
  let work_left := work xbar coord_left
  let work_right := work xbar coord_right
  let action_left :=
    0.5 * (work_left ⬝ᵥ (sLeftMatrix tbar_left eval_left evec_left *ᵥ work_left))
  let action_right :=
    0.5 * (work_right ⬝ᵥ (sRightMatrix tbar_left tf eval_right evec_right *ᵥ work_right))
  let eval1 := fun i => clampedEval (eval_left i)
  let eval2 := fun i => clampedEval (eval_right i)
  { eval1 := eval1
    eval2 := eval2
    evec1 := evec_left
    evec2 := evec_right
    coord_left := coord_left
    coord_right := coord_right
    xbar := xbar
    work_left := work_left
    work_right := work_right
    action_left := action_left
    action_right := action_right
    trajectory_coord := t_series.map
      (trajStep tbar_left tbar_right tf eval1 eval2 evec_left evec_right
        work_left work_right coord_left coord_right) }

/-- Modelled from the spec: the external `ThermoDynamics.work` collaborator
(module `path.thermo`, outside `src/`) returns a displacement/work vector
between a candidate transition coordinate and an end-state coordinate.  The
spec leaves its numeric definition external; the theorems about the solver
hold for an arbitrary `work` argument, and this displacement instance is
used only to build concrete witnesses. -/
def workDisplacement {n : ℕ} (xbar coord : Fin n → ℝ) : Fin n → ℝ :=
  xbar - coord

end

/-! ### Helper lemmas on the IEEE value pipeline -/

lemma fadd_fin_fin (a b : ℚ) : fadd (.fin a) (.fin b) = .fin (a + b) := rfl

lemma fdiv_fin_fin_of_ne (a b : ℚ) (hb : b ≠ 0) :
    fdiv (.fin a) (.fin b) = .fin (a / b) := by
  simp [fdiv, hb]

lemma argminBool_eq_findIdx {l : List Bool} (h : false ∈ l) :
    argminBool l = l.findIdx (fun b => !b) := if_pos h

lemma findIdx_map_comp {α β : Type} (f : α → β) (p : β → Bool) (l : List α) :
    (l.map f).findIdx p = l.findIdx (fun x => p (f x)) := by
  induction l with
  | nil => rfl
  | cons x xs ih => simp [List.findIdx_cons, ih]

lemma findIdx_getD {α : Type} (p : α → Bool) (l : List α) (d : α)
    (h : l.findIdx p < l.length) : p (l.getD (l.findIdx p) d) = true := by
  rw [List.getD_eq_getElem?_getD, List.getElem?_eq_getElem h]
  simp only [Option.getD_some]
  exact List.findIdx_getElem

lemma getD_map_range {α : Type} (f : ℕ → α) (n i : ℕ) (hi : i < n) (d : α) :
    ((List.range n).map f).getD i d = f i := by
  rw [List.getD_eq_getElem?_getD, List.getElem?_map, List.getElem?_range hi]
  rfl

lemma cumsumFrom_map_fin (l : List ℚ) (c : ℚ) :
    cumsumFrom (.fin c) (l.map .fin) = (cumsumQ c l).map .fin := by
  induction l generalizing c with
  | nil => rfl
  | cons x xs ih => simp [cumsumFrom, cumsumQ, fadd_fin_fin, ih]

lemma foldl_fadd_fin (l : List ℚ) (c : ℚ) :
    (l.map FVal.fin).foldl fadd (.fin c) = .fin (c + l.sum) := by
  induction l generalizing c with
  | nil => simp
  | cons x xs ih => simp [fadd_fin_fin, ih, add_assoc]

lemma cumsumQ_getLast? (l : List ℚ) (hl : l ≠ []) (c : ℚ) :
    (cumsumQ c l).getLast? = some (c + l.sum) := by
  induction l generalizing c with
  | nil => exact absurd rfl hl
  | cons x xs ih =>
      cases xs with
      | nil => simp [cumsumQ]
      | cons y ys =>
          rw [cumsumQ, cumsumQ, List.getLast?_cons_cons, ← cumsumQ, ih (by simp) (c + x)]
          simp [add_assoc]

lemma cumsumQ_getElem_zero (x : ℚ) (l : List ℚ) (c : ℚ) :
    (cumsumQ c (x :: l)).getD 0 0 = c + x := rfl

/-- Reduction of the whole reciprocal/cumulative pipeline to rational lists
when every retained eigenvalue is nonzero. -/
lemma reciprocal_eq_map_fin (rt : List ℚ) (h : ∀ e ∈ rt, e ≠ 0) :
    rt.map (fun e => fdiv (.fin 1) (.fin e)) = (rt.map fun e => 1 / e).map .fin := by
  rw [List.map_map]
  exact List.map_congr_left fun e he => fdiv_fin_fin_of_ne 1 e (h e he)

lemma fdiv_nan_right (v : FVal) : fdiv v .nan = .nan := by cases v <;> rfl

lemma fadd_inf_left (v : FVal) (h : (∃ q, v = .fin q) ∨ v = .inf) :
    fadd .inf v = .inf := by
  rcases h with ⟨q, rfl⟩ | rfl <;> rfl

lemma fadd_finOrInf (u v : FVal) (hu : (∃ q, u = .fin q) ∨ u = .inf)
    (hv : (∃ q, v = .fin q) ∨ v = .inf) :
    (∃ q, fadd u v = .fin q) ∨ fadd u v = .inf := by
  rcases hu with ⟨a, rfl⟩ | rfl <;> rcases hv with ⟨b, rfl⟩ | rfl
  · exact Or.inl ⟨a + b, rfl⟩
  · exact Or.inr rfl
  · exact Or.inr rfl
  · exact Or.inr rfl

lemma foldl_fadd_of_inf_acc (l : List FVal)
    (h : ∀ x ∈ l, (∃ q, x = .fin q) ∨ x = .inf) :
    l.foldl fadd .inf = .inf := by
  induction l with
  | nil => rfl
  | cons x xs ih =>
      rw [List.foldl_cons, fadd_inf_left x (h x (by simp))]
      exact ih fun y hy => h y (by simp [hy])

lemma foldl_fadd_of_inf_mem (l : List FVal)
    (hl : ∀ x ∈ l, (∃ q, x = .fin q) ∨ x = .inf) (hmem : .inf ∈ l) :
    ∀ acc, ((∃ q, acc = .fin q) ∨ acc = .inf) → l.foldl fadd acc = .inf := by
  induction l with
  | nil => simp at hmem
  | cons x xs ih =>
      intro acc hacc
      rw [List.foldl_cons]
      rcases List.mem_cons.mp hmem with rfl | hmem'
      · have hx : fadd acc .inf = .inf := by rcases hacc with ⟨q, rfl⟩ | rfl <;> rfl
        rw [hx]
        exact foldl_fadd_of_inf_acc xs fun y hy => hl y (by simp [hy])
      · exact ih (fun y hy => hl y (by simp [hy])) hmem' (fadd acc x)
          (fadd_finOrInf acc x hacc (hl x (by simp)))

lemma cumsumFrom_finOrInf (l : List FVal)
    (hl : ∀ x ∈ l, (∃ q, x = .fin q) ∨ x = .inf) :
    ∀ acc, ((∃ q, acc = .fin q) ∨ acc = .inf) →
      ∀ y ∈ cumsumFrom acc l, (∃ q, y = .fin q) ∨ y = .inf := by
  induction l with
  | nil => intro acc _ y hy; simp [cumsumFrom] at hy
  | cons x xs ih =>
      intro acc hacc y hy
      rw [cumsumFrom] at hy
      have hstep := fadd_finOrInf acc x hacc (hl x (by simp))
      rcases List.mem_cons.mp hy with rfl | hy'
      · exact hstep
      · exact ih (fun z hz => hl z (by simp [hz])) (fadd acc x) hstep y hy'

lemma inf_mem_cumsumFrom (l : List FVal)
    (hl : ∀ x ∈ l, (∃ q, x = .fin q) ∨ x = .inf) (hmem : .inf ∈ l) :
    ∀ acc, ((∃ q, acc = .fin q) ∨ acc = .inf) → .inf ∈ cumsumFrom acc l := by
  induction l with
  | nil => simp at hmem
  | cons x xs ih =>
      intro acc hacc
      rw [cumsumFrom]
      rcases List.mem_cons.mp hmem with rfl | hmem'
      · have hx : fadd acc .inf = .inf := by rcases hacc with ⟨q, rfl⟩ | rfl <;> rfl
        simp [hx]
      · exact List.mem_cons_of_mem _
          (ih (fun z hz => hl z (by simp [hz])) hmem' (fadd acc x)
            (fadd_finOrInf acc x hacc (hl x (by simp))))

/-! ### Claims C10 and C9: the degenerate spectra of
`Time.time_to_transition_state` -/

/-- Claim C10: for every spectrum of length exactly 6 with a strictly
positive sixth eigenvalue, exactly one eigenvalue is retained after the skip
of 5, its cumulative fraction `1.0` already meets the 0.95 cutoff, so
`cutoff_id = 0`, the expression `cumulative[cutoff_id] / cutoff_id` divides
by zero, and the function returns an infinite time and a zero force constant
instead of raising an error. -/
theorem claim_C10 (ev : List ℚ) (hlen : ev.length = 6) (hpos : 0 < ev.getD 5 0) :
    time_to_transition_state ev = some (.inf, .fin 0) := by
  obtain ⟨a, b, c, d, e, f, rfl⟩ : ∃ a b c d e f, ev = [a, b, c, d, e, f] := by
    rcases ev with _ | ⟨a, _ | ⟨b, _ | ⟨c, _ | ⟨d, _ | ⟨e, _ | ⟨f, _ | ⟨g, tl⟩⟩⟩⟩⟩⟩⟩ <;>
      simp at hlen
    exact ⟨a, b, c, d, e, f, rfl⟩
  have hf : f ≠ 0 := by
    have h0 : (0 : ℚ) < f := by simpa using hpos
    exact ne_of_gt h0
  have h1f : (1 : ℚ) / f ≠ 0 := one_div_ne_zero hf
  norm_num [time_to_transition_state, skipCount, cumsumFrom, argminBool,
    List.findIdx_cons, fadd, fdiv, fltQ, hf, h1f, div_self h1f]

/-- Claim C10 witness: the concrete spectrum `[0, 0, 0, 0, 0, 1]`. -/
theorem claim_C10_witness :
    ([(0 : ℚ), 0, 0, 0, 0, 1].length = 6 ∧ (0 : ℚ) < [(0 : ℚ), 0, 0, 0, 0, 1].getD 5 0) ∧
    time_to_transition_state [0, 0, 0, 0, 0, 1] = some (.inf, .fin 0) :=
  ⟨⟨by decide, by decide⟩, claim_C10 [0, 0, 0, 0, 0, 1] (by decide) (by decide)⟩

/-- Claim C9 is false on its zero-eigenvalue half: the spectrum
`[0, 0, 0, 0, 0, 0]` has length 6, its retained eigenvalue (after the skip
of 5) is `0`, yet `time_to_transition_state` does not fail: `np.reciprocal`
produces `inf` with only a runtime warning and the function returns a
`(nan, nan)` pair. -/
theorem claim_C9_cex : time_to_transition_state [0, 0, 0, 0, 0, 0] ≠ none := by decide

/-- Claim C9, corrected.  A spectrum of length 0 does make the function fail
(`np.argmin` of the empty comparison array raises `ValueError`, modelled as
`none`), but a zero retained eigenvalue does not: its reciprocal is `inf`,
the normalised cumulative array contains `nan`, and the function returns the
pair `(nan, nan)` rather than raising an error. -/
theorem claim_C9 :
    (∀ ev : List ℚ, ev.length = 0 → time_to_transition_state ev = none) ∧
    (∀ ev : List ℚ, 6 ≤ ev.length → (0 : ℚ) ∈ ev.drop (skipCount ev) →
      time_to_transition_state ev = some (.nan, .nan)) := by
  constructor
  · intro ev h
    rw [List.length_eq_zero] at h
    subst h
    decide
  · intro ev hlen hzero
    have hrcp : ∀ x ∈ (ev.drop (skipCount ev)).map (fun e => fdiv (.fin 1) (.fin e)),
        (∃ q, x = FVal.fin q) ∨ x = FVal.inf := by
      intro x hx
      obtain ⟨e, _, rfl⟩ := List.mem_map.mp hx
      by_cases he : e = 0
      · subst he
        exact Or.inr (by norm_num [fdiv])
      · exact Or.inl ⟨1 / e, fdiv_fin_fin_of_ne 1 e he⟩
    have hinf : FVal.inf ∈ (ev.drop (skipCount ev)).map (fun e => fdiv (.fin 1) (.fin e)) := by
      have : fdiv (.fin 1) (.fin (0 : ℚ)) = FVal.inf := by norm_num [fdiv]
      exact this ▸ List.mem_map_of_mem _ hzero
    have htotal : ((ev.drop (skipCount ev)).map (fun e => fdiv (.fin 1) (.fin e))).foldl
        fadd (.fin 0) = FVal.inf :=
      foldl_fadd_of_inf_mem _ hrcp hinf (.fin 0) (Or.inl ⟨0, rfl⟩)
    have hcs := cumsumFrom_finOrInf _ hrcp (.fin 0) (Or.inl ⟨0, rfl⟩)
    have hcsinf := inf_mem_cumsumFrom _ hrcp hinf (.fin 0) (Or.inl ⟨0, rfl⟩)
    -- every normalised entry is `fin 0` or `nan`, and some entry is `nan`
    have hcum : ∀ y ∈ (cumsumFrom (.fin 0)
        ((ev.drop (skipCount ev)).map (fun e => fdiv (.fin 1) (.fin e)))).map
          (fun c => fdiv c FVal.inf),
        y = FVal.fin 0 ∨ y = FVal.nan := by
      intro y hy
      obtain ⟨z, hz, rfl⟩ := List.mem_map.mp hy
      rcases hcs z hz with ⟨q, rfl⟩ | rfl
      · exact Or.inl rfl
      · exact Or.inr rfl
    have hnan : FVal.nan ∈ (cumsumFrom (.fin 0)
        ((ev.drop (skipCount ev)).map (fun e => fdiv (.fin 1) (.fin e)))).map
          (fun c => fdiv c FVal.inf) := by
      have : fdiv FVal.inf FVal.inf = FVal.nan := rfl
      exact this ▸ List.mem_map_of_mem _ hcsinf
    simp only [time_to_transition_state, htotal]
    set cum := (cumsumFrom (.fin 0)
        ((ev.drop (skipCount ev)).map (fun e => fdiv (.fin 1) (.fin e)))).map
          (fun c => fdiv c FVal.inf) with hcumdef
    have hfalse : false ∈ cum.map (fun c => fltQ c (95 / 100)) := by
      have : fltQ FVal.nan (95 / 100) = false := rfl
      exact this ▸ List.mem_map_of_mem _ hnan
    have hne : cum.map (fun c => fltQ c (95 / 100)) ≠ [] := List.ne_nil_of_mem hfalse
    rw [if_neg (by simpa [List.isEmpty_iff] using hne)]
    rw [argminBool_eq_findIdx hfalse]
    set bools := cum.map (fun c => fltQ c (95 / 100)) with hboolsdef
    have hidx : bools.findIdx (fun b => !b) < bools.length :=
      List.findIdx_lt_length_of_exists ⟨false, hfalse, rfl⟩
    have hidxcum : bools.findIdx (fun b => !b) < cum.length := by
      simpa [hboolsdef] using hidx
    have hentryb : bools.getD (bools.findIdx (fun b => !b)) true = false := by
      have h := findIdx_getD (fun b => !b) bools true hidx
      simpa using h
    have hmapfact : ∀ j, j < cum.length →
        (cum.map (fun c => fltQ c (95 / 100))).getD j true =
        fltQ (cum.getD j FVal.nan) (95 / 100) := by
      intro j hj
      rw [List.getD_eq_getElem?_getD, List.getD_eq_getElem?_getD, List.getElem?_map,
        List.getElem?_eq_getElem hj]
      rfl
    have hbg := hmapfact (bools.findIdx (fun b => !b)) hidxcum
    rw [← hboolsdef] at hbg
    have hentry : fltQ (cum.getD (bools.findIdx (fun b => !b)) FVal.nan) (95 / 100)
        = false := by
      rw [← hbg]
      exact hentryb
    have hmem : cum.getD (bools.findIdx (fun b => !b)) FVal.nan ∈ cum := by
      rw [List.getD_eq_getElem?_getD, List.getElem?_eq_getElem hidxcum]
      simp only [Option.getD_some]
      exact List.getElem_mem _
    have hgetD : cum.getD (bools.findIdx (fun b => !b)) FVal.nan = FVal.nan := by
      rcases hcum _ hmem with h0 | h0
      · rw [h0] at hentry
        norm_num [fltQ] at hentry
      · exact h0
    rw [hgetD]
    have h1 : fdiv FVal.nan (.fin ((bools.findIdx (fun b => !b) : ℕ) : ℚ)) = FVal.nan := rfl
    rw [h1]
    have h2 : fadd FVal.nan (.fin 1) = FVal.nan := rfl
    rw [h2]
    rw [fdiv_nan_right, fdiv_nan_right]

/-- Claim C9 witness: the empty spectrum errors, and the length-6 spectrum
`[1, 1, 1, 1, 1, 0]` with retained eigenvalue `0` returns `(nan, nan)`. -/
theorem claim_C9_witness :
    time_to_transition_state [] = none ∧
    time_to_transition_state [1, 1, 1, 1, 1, 0] = some (.nan, .nan) :=
  ⟨claim_C9.1 [] rfl,
   claim_C9.2 [1, 1, 1, 1, 1, 0] (by decide) (by decide)⟩

/-! ### Claims C3 and C8: the regular path of `Time.time_to_transition_state` -/

lemma cumsumQ_length (l : List ℚ) (c : ℚ) : (cumsumQ c l).length = l.length := by
  induction l generalizing c with
  | nil => rfl
  | cons x xs ih => simp [cumsumQ, ih]

lemma cumsumQ_getD_zero (l : List ℚ) (hl : l ≠ []) (c : ℚ) :
    (cumsumQ c l).getD 0 0 = c + l.getD 0 0 := by
  obtain ⟨x, t, rfl⟩ := List.exists_cons_of_ne_nil hl
  rfl

lemma cumsumQ_ne_nil (l : List ℚ) (hl : l ≠ []) (c : ℚ) : cumsumQ c l ≠ [] := by
  obtain ⟨x, t, rfl⟩ := List.exists_cons_of_ne_nil hl
  simp [cumsumQ]

lemma getD_zero_map {α β : Type} (f : α → β) (l : List α) (hl : l ≠ []) (d : β) (d' : α) :
    (l.map f).getD 0 d = f (l.getD 0 d') := by
  obtain ⟨x, t, rfl⟩ := List.exists_cons_of_ne_nil hl
  rfl

lemma one_le_findIdx_of_getD_zero {α : Type} (p : α → Bool) (l : List α) (d : α)
    (hl : l ≠ []) (h : p (l.getD 0 d) = false) : 1 ≤ l.findIdx p := by
  obtain ⟨x, t, rfl⟩ := List.exists_cons_of_ne_nil hl
  have hx : p x = false := h
  rw [List.findIdx_cons, hx]
  exact Nat.succ_le_succ (Nat.zero_le _)

lemma decide_one_lt_frac : decide ((1 : ℚ) < 95 / 100) = false :=
  decide_eq_false (by norm_num)

lemma bnot_decide_one_lt_frac : (!decide ((1 : ℚ) < 95 / 100)) = true := by
  rw [decide_one_lt_frac]
  rfl

lemma retained_length_pos (ev : List ℚ) (hlen : 6 ≤ ev.length) :
    ev.drop (skipCount ev) ≠ [] := by
  have : 0 < (ev.drop (skipCount ev)).length := by
    rw [List.length_drop]
    unfold skipCount
    split <;> omega
  exact List.length_pos.mp this

/-- Claim C3 is false as stated: the all-ones spectrum of length 6 is
accepted, its single retained eigenvalue is strictly positive, yet the
returned time is infinite and the returned force constant is zero (the
cutoff index is 0 and the force-constant formula divides by zero). -/
theorem claim_C3_cex :
    ¬ ∃ t k : ℚ, time_to_transition_state [1, 1, 1, 1, 1, 1] = some (.fin t, .fin k)
      ∧ 0 < t ∧ 0 < k := by
  rintro ⟨t, k, h, -, -⟩
  have hv : time_to_transition_state [1, 1, 1, 1, 1, 1] = some (.inf, .fin 0) := by
    norm_num [time_to_transition_state, skipCount, cumsumFrom, argminBool,
      List.findIdx_cons, fadd, fdiv, fltQ]
  rw [hv] at h
  simp [Prod.ext_iff] at h

/-- Claim C3, corrected: for every spectrum accepted by
`time_to_transition_state` (length at least 6) whose retained eigenvalues are
all strictly positive, and whose first retained reciprocal is less than 0.95
of the total reciprocal sum (so that the cumulative-fraction cutoff lands at
a positive index and the formula does not divide by zero), the returned time
and force constant are finite and strictly positive. -/
theorem claim_C3 (ev : List ℚ) (hlen : 6 ≤ ev.length)
    (hpos : ∀ e ∈ ev.drop (skipCount ev), 0 < e)
    (hfirst : ((ev.drop (skipCount ev)).map fun e => 1 / e).getD 0 0 <
      95 / 100 * ((ev.drop (skipCount ev)).map fun e => 1 / e).sum) :
    ∃ t k : ℚ, time_to_transition_state ev = some (.fin t, .fin k) ∧ 0 < t ∧ 0 < k := by
  have hrtne : ev.drop (skipCount ev) ≠ [] := retained_length_pos ev hlen
  have hne : ∀ e ∈ ev.drop (skipCount ev), e ≠ 0 := fun e he => ne_of_gt (hpos e he)
  have hrlne : (ev.drop (skipCount ev)).map (fun e => (1 : ℚ) / e) ≠ [] := by
    simpa using hrtne
  have hrlpos : ∀ x ∈ (ev.drop (skipCount ev)).map (fun e => (1 : ℚ) / e), 0 < x := by
    intro x hx
    obtain ⟨e, he, rfl⟩ := List.mem_map.mp hx
    exact one_div_pos.mpr (hpos e he)
  have hS : 0 < ((ev.drop (skipCount ev)).map (fun e => (1 : ℚ) / e)).sum :=
    List.sum_pos _ hrlpos hrlne
  have hSne : ((ev.drop (skipCount ev)).map (fun e => (1 : ℚ) / e)).sum ≠ 0 :=
    ne_of_gt hS
  have hrecip := reciprocal_eq_map_fin (ev.drop (skipCount ev)) hne
  have htotal := foldl_fadd_fin ((ev.drop (skipCount ev)).map fun e => (1 : ℚ) / e) 0
  have hcsum := cumsumFrom_map_fin ((ev.drop (skipCount ev)).map fun e => (1 : ℚ) / e) 0
  have hcum : ((cumsumQ 0 ((ev.drop (skipCount ev)).map fun e => (1 : ℚ) / e)).map
        FVal.fin).map
        (fun c => fdiv c (.fin ((ev.drop (skipCount ev)).map fun e => (1 : ℚ) / e).sum)) =
      ((cumsumQ 0 ((ev.drop (skipCount ev)).map fun e => (1 : ℚ) / e)).map
        fun q => q / ((ev.drop (skipCount ev)).map fun e => (1 : ℚ) / e).sum).map
        FVal.fin := by
    rw [List.map_map, List.map_map]
    exact List.map_congr_left fun q _ => fdiv_fin_fin_of_ne q _ hSne
  have hbools : (((cumsumQ 0 ((ev.drop (skipCount ev)).map fun e => (1 : ℚ) / e)).map
        fun q => q / ((ev.drop (skipCount ev)).map fun e => (1 : ℚ) / e).sum).map
        FVal.fin).map (fun c => fltQ c (95 / 100)) =
      ((cumsumQ 0 ((ev.drop (skipCount ev)).map fun e => (1 : ℚ) / e)).map
        fun q => q / ((ev.drop (skipCount ev)).map fun e => (1 : ℚ) / e).sum).map
        fun q => decide (q < (95 / 100 : ℚ)) := by
    rw [List.map_map]
    rfl
  have hcqSne : ((cumsumQ 0 ((ev.drop (skipCount ev)).map fun e => (1 : ℚ) / e)).map
      fun q => q / ((ev.drop (skipCount ev)).map fun e => (1 : ℚ) / e).sum) ≠ [] := by
    simp only [ne_eq, List.map_eq_nil_iff]
    exact cumsumQ_ne_nil _ hrlne 0
  have hlast : ((cumsumQ 0 ((ev.drop (skipCount ev)).map fun e => (1 : ℚ) / e)).map
      fun q => q / ((ev.drop (skipCount ev)).map fun e => (1 : ℚ) / e).sum).getLast? =
      some 1 := by
    rw [List.getLast?_map, cumsumQ_getLast? _ hrlne 0, Option.map_some', zero_add,
      div_self hSne]
  have h1mem : (1 : ℚ) ∈ ((cumsumQ 0 ((ev.drop (skipCount ev)).map fun e => (1 : ℚ) / e)).map
      fun q => q / ((ev.drop (skipCount ev)).map fun e => (1 : ℚ) / e).sum) :=
    List.mem_of_getLast?_eq_some hlast
  have hfalse : false ∈ (((cumsumQ 0 ((ev.drop (skipCount ev)).map fun e => (1 : ℚ) / e)).map
      fun q => q / ((ev.drop (skipCount ev)).map fun e => (1 : ℚ) / e).sum).map
      fun q => decide (q < (95 / 100 : ℚ))) := by
    have hd : decide ((1 : ℚ) < 95 / 100) = false := decide_one_lt_frac
    exact hd ▸ List.mem_map_of_mem _ h1mem
  have hjlt : ((cumsumQ 0 ((ev.drop (skipCount ev)).map fun e => (1 : ℚ) / e)).map
      fun q => q / ((ev.drop (skipCount ev)).map fun e => (1 : ℚ) / e).sum).findIdx
      (fun x => !decide (x < (95 / 100 : ℚ))) <
      ((cumsumQ 0 ((ev.drop (skipCount ev)).map fun e => (1 : ℚ) / e)).map
      fun q => q / ((ev.drop (skipCount ev)).map fun e => (1 : ℚ) / e).sum).length :=
    List.findIdx_lt_length_of_exists ⟨1, h1mem, bnot_decide_one_lt_frac⟩
  have hq : ¬ (((cumsumQ 0 ((ev.drop (skipCount ev)).map fun e => (1 : ℚ) / e)).map
      fun q => q / ((ev.drop (skipCount ev)).map fun e => (1 : ℚ) / e).sum).getD (((cumsumQ 0 ((ev.drop (skipCount ev)).map fun e => (1 : ℚ) / e)).map
      fun q => q / ((ev.drop (skipCount ev)).map fun e => (1 : ℚ) / e).sum).findIdx
      (fun x => !decide (x < (95 / 100 : ℚ)))) 0 < (95 / 100 : ℚ)) := by
    have h := findIdx_getD (fun x => !decide (x < (95 / 100 : ℚ))) ((cumsumQ 0 ((ev.drop (skipCount ev)).map fun e => (1 : ℚ) / e)).map
      fun q => q / ((ev.drop (skipCount ev)).map fun e => (1 : ℚ) / e).sum) 0 hjlt
    simpa using h
  have hj1 : 1 ≤ ((cumsumQ 0 ((ev.drop (skipCount ev)).map fun e => (1 : ℚ) / e)).map
      fun q => q / ((ev.drop (skipCount ev)).map fun e => (1 : ℚ) / e).sum).findIdx
      (fun x => !decide (x < (95 / 100 : ℚ))) := by
    apply one_le_findIdx_of_getD_zero _ _ 0 hcqSne
    have hh : ((ev.drop (skipCount ev)).map fun e => (1 : ℚ) / e).getD 0 0 /
        ((ev.drop (skipCount ev)).map fun e => (1 : ℚ) / e).sum < 95 / 100 := by
      rw [div_lt_iff₀ hS]
      exact hfirst
    rw [getD_zero_map _ _ (cumsumQ_ne_nil _ hrlne 0) 0 0]
    rw [cumsumQ_getD_zero _ hrlne 0, zero_add]
    simp only [decide_eq_true hh, Bool.not_true]
  have hgetD : (((cumsumQ 0 ((ev.drop (skipCount ev)).map fun e => (1 : ℚ) / e)).map
      fun q => q / ((ev.drop (skipCount ev)).map fun e => (1 : ℚ) / e).sum).map FVal.fin).getD
      (((cumsumQ 0 ((ev.drop (skipCount ev)).map fun e => (1 : ℚ) / e)).map
      fun q => q / ((ev.drop (skipCount ev)).map fun e => (1 : ℚ) / e).sum).findIdx (fun x => !decide (x < (95 / 100 : ℚ)))) .nan =
      .fin (((cumsumQ 0 ((ev.drop (skipCount ev)).map fun e => (1 : ℚ) / e)).map
      fun q => q / ((ev.drop (skipCount ev)).map fun e => (1 : ℚ) / e).sum).getD (((cumsumQ 0 ((ev.drop (skipCount ev)).map fun e => (1 : ℚ) / e)).map
      fun q => q / ((ev.drop (skipCount ev)).map fun e => (1 : ℚ) / e).sum).findIdx (fun x => !decide (x < (95 / 100 : ℚ)))) 0) := by
    rw [List.getD_eq_getElem?_getD, List.getD_eq_getElem?_getD, List.getElem?_map,
      List.getElem?_eq_getElem hjlt]
    rfl
  have hjQ : (0 : ℚ) <
      ((((cumsumQ 0 ((ev.drop (skipCount ev)).map fun e => (1 : ℚ) / e)).map
      fun q => q / ((ev.drop (skipCount ev)).map fun e => (1 : ℚ) / e).sum).findIdx
      (fun x => !decide (x < (95 / 100 : ℚ))) : ℕ) : ℚ) := by
    exact_mod_cast Nat.lt_of_lt_of_le Nat.zero_lt_one hj1
  have hqpos : (0 : ℚ) < ((cumsumQ 0 ((ev.drop (skipCount ev)).map fun e => (1 : ℚ) / e)).map
      fun q => q / ((ev.drop (skipCount ev)).map fun e => (1 : ℚ) / e).sum).getD
      (((cumsumQ 0 ((ev.drop (skipCount ev)).map fun e => (1 : ℚ) / e)).map
      fun q => q / ((ev.drop (skipCount ev)).map fun e => (1 : ℚ) / e).sum).findIdx (fun x => !decide (x < (95 / 100 : ℚ)))) 0 :=
    lt_of_lt_of_le (by norm_num) (not_lt.mp hq)
  have hXpos : (0 : ℚ) < ((cumsumQ 0 ((ev.drop (skipCount ev)).map fun e => (1 : ℚ) / e)).map
      fun q => q / ((ev.drop (skipCount ev)).map fun e => (1 : ℚ) / e).sum).getD
      (((cumsumQ 0 ((ev.drop (skipCount ev)).map fun e => (1 : ℚ) / e)).map
      fun q => q / ((ev.drop (skipCount ev)).map fun e => (1 : ℚ) / e).sum).findIdx (fun x => !decide (x < (95 / 100 : ℚ)))) 0 /
      ((((cumsumQ 0 ((ev.drop (skipCount ev)).map fun e => (1 : ℚ) / e)).map
      fun q => q / ((ev.drop (skipCount ev)).map fun e => (1 : ℚ) / e).sum).findIdx (fun x => !decide (x < (95 / 100 : ℚ))) : ℕ) : ℚ) + 1 := by
    have hdiv := div_pos hqpos hjQ
    linarith
  simp only [time_to_transition_state, hrecip, htotal, zero_add, hcsum, hcum, hbools]
  rw [if_neg (by simpa [List.isEmpty_iff] using List.ne_nil_of_mem hfalse)]
  rw [argminBool_eq_findIdx hfalse, findIdx_map_comp]
  rw [hgetD, fdiv_fin_fin_of_ne _ _ (ne_of_gt hjQ), fadd_fin_fin,
    fdiv_fin_fin_of_ne _ _ (ne_of_gt hXpos),
    fdiv_fin_fin_of_ne _ _ (one_div_ne_zero (ne_of_gt hXpos))]
  refine ⟨_, _, rfl, ?_, ?_⟩
  · exact div_pos (by norm_num) (one_div_pos.mpr hXpos)
  · exact one_div_pos.mpr hXpos

/-- Claim C3 witness: the all-ones spectrum of length 8 (skip 6, retained
`[1, 1]`, first reciprocal fraction `1/2 < 0.95`). -/
theorem claim_C3_witness :
    ∃ t k : ℚ, time_to_transition_state [1, 1, 1, 1, 1, 1, 1, 1] =
      some (.fin t, .fin k) ∧ 0 < t ∧ 0 < k :=
  claim_C3 [1, 1, 1, 1, 1, 1, 1, 1] (by norm_num)
    (by norm_num [skipCount]) (by norm_num [skipCount])

/-- Claim C8: on every accepted spectrum (length at least 6) whose retained
eigenvalues are strictly positive, `time_to_transition_state` computes
exactly the algorithm described by the spec: skip 6 (resp. 5) eigenvalues,
take reciprocals, normalise the cumulative sums by the total, cut off at the
first index whose cumulative fraction reaches 0.95, and apply the stated
force-constant and time formulas. -/
theorem claim_C8 (ev : List ℚ) (hlen : 6 ≤ ev.length)
    (hpos : ∀ e ∈ ev.drop (skipCount ev), 0 < e) :
    time_to_transition_state ev = spec_time_to_transition_state ev := by
  have hrtne : ev.drop (skipCount ev) ≠ [] := retained_length_pos ev hlen
  have hne : ∀ e ∈ ev.drop (skipCount ev), e ≠ 0 := fun e he => ne_of_gt (hpos e he)
  have hrlne : (ev.drop (skipCount ev)).map (fun e => (1 : ℚ) / e) ≠ [] := by
    simpa using hrtne
  have hrlpos : ∀ x ∈ (ev.drop (skipCount ev)).map (fun e => (1 : ℚ) / e), 0 < x := by
    intro x hx
    obtain ⟨e, he, rfl⟩ := List.mem_map.mp hx
    exact one_div_pos.mpr (hpos e he)
  have hS : 0 < ((ev.drop (skipCount ev)).map (fun e => (1 : ℚ) / e)).sum :=
    List.sum_pos _ hrlpos hrlne
  have hSne : ((ev.drop (skipCount ev)).map (fun e => (1 : ℚ) / e)).sum ≠ 0 :=
    ne_of_gt hS
  have hrecip := reciprocal_eq_map_fin (ev.drop (skipCount ev)) hne
  have htotal := foldl_fadd_fin ((ev.drop (skipCount ev)).map fun e => (1 : ℚ) / e) 0
  have hcsum := cumsumFrom_map_fin ((ev.drop (skipCount ev)).map fun e => (1 : ℚ) / e) 0
  have hcum : ((cumsumQ 0 ((ev.drop (skipCount ev)).map fun e => (1 : ℚ) / e)).map
        FVal.fin).map
        (fun c => fdiv c (.fin ((ev.drop (skipCount ev)).map fun e => (1 : ℚ) / e).sum)) =
      ((cumsumQ 0 ((ev.drop (skipCount ev)).map fun e => (1 : ℚ) / e)).map
        fun q => q / ((ev.drop (skipCount ev)).map fun e => (1 : ℚ) / e).sum).map
        FVal.fin := by
    rw [List.map_map, List.map_map]
    exact List.map_congr_left fun q _ => fdiv_fin_fin_of_ne q _ hSne
  have hbools : (((cumsumQ 0 ((ev.drop (skipCount ev)).map fun e => (1 : ℚ) / e)).map
        fun q => q / ((ev.drop (skipCount ev)).map fun e => (1 : ℚ) / e).sum).map
        FVal.fin).map (fun c => fltQ c (95 / 100)) =
      ((cumsumQ 0 ((ev.drop (skipCount ev)).map fun e => (1 : ℚ) / e)).map
        fun q => q / ((ev.drop (skipCount ev)).map fun e => (1 : ℚ) / e).sum).map
        fun q => decide (q < (95 / 100 : ℚ)) := by
    rw [List.map_map]
    rfl
  have hlast : ((cumsumQ 0 ((ev.drop (skipCount ev)).map fun e => (1 : ℚ) / e)).map
      fun q => q / ((ev.drop (skipCount ev)).map fun e => (1 : ℚ) / e).sum).getLast? =
      some 1 := by
    rw [List.getLast?_map, cumsumQ_getLast? _ hrlne 0, Option.map_some', zero_add,
      div_self hSne]
  have h1mem : (1 : ℚ) ∈ ((cumsumQ 0 ((ev.drop (skipCount ev)).map fun e => (1 : ℚ) / e)).map
      fun q => q / ((ev.drop (skipCount ev)).map fun e => (1 : ℚ) / e).sum) :=
    List.mem_of_getLast?_eq_some hlast
  have hfalse : false ∈ (((cumsumQ 0 ((ev.drop (skipCount ev)).map fun e => (1 : ℚ) / e)).map
      fun q => q / ((ev.drop (skipCount ev)).map fun e => (1 : ℚ) / e).sum).map
      fun q => decide (q < (95 / 100 : ℚ))) := by
    have hd : decide ((1 : ℚ) < 95 / 100) = false := decide_one_lt_frac
    exact hd ▸ List.mem_map_of_mem _ h1mem
  have hpred : (fun q : ℚ => fgeQ (.fin q) (95 / 100)) =
      fun q : ℚ => !decide (q < (95 / 100 : ℚ)) := by
    funext q
    by_cases h : q < (95 / 100 : ℚ)
    · simp [fgeQ, not_le.mpr h, h]
    · simp [fgeQ, not_lt.mp h, h]
  simp only [time_to_transition_state, spec_time_to_transition_state]
  rw [show (if 6 < ev.length then 6 else 5) = skipCount ev from rfl]
  simp only [hrecip, htotal, zero_add, hcsum, hcum, hbools]
  rw [if_neg (by simpa [List.isEmpty_iff] using List.ne_nil_of_mem hfalse)]
  rw [if_neg (by
    have hmapne : ((cumsumQ 0 ((ev.drop (skipCount ev)).map fun e => (1 : ℚ) / e)).map
        fun q => q / ((ev.drop (skipCount ev)).map fun e => (1 : ℚ) / e).sum).map
        FVal.fin ≠ [] := by
      simp only [ne_eq, List.map_eq_nil_iff]
      exact cumsumQ_ne_nil _ hrlne 0
    simpa [List.isEmpty_iff] using hmapne)]
  rw [argminBool_eq_findIdx hfalse]
  simp only [findIdx_map_comp, hpred]

/-- Claim C8 witness: the all-ones spectrum of length 8. -/
theorem claim_C8_witness :
    time_to_transition_state [1, 1, 1, 1, 1, 1, 1, 1] =
      spec_time_to_transition_state [1, 1, 1, 1, 1, 1, 1, 1] :=
  claim_C8 [1, 1, 1, 1, 1, 1, 1, 1] (by norm_num) (by norm_num [skipCount])

/-! ### The ratio sequence of `Time.time_steps` -/

lemma ratioSteps_length (ss : ℚ) : ∀ (k : ℕ) (c : ℚ), (ratioSteps ss c k).length = k := by
  intro k
  induction k with
  | zero => intro c; rfl
  | succ n ih => intro c; simp [ratioSteps, ih]

lemma ratioSteps_getD (ss : ℚ) :
    ∀ (k : ℕ) (c : ℚ) (i : ℕ), i < k →
      (ratioSteps ss c k).getD i 0 = ratioFold (c + i * ss) := by
  intro k
  induction k with
  | zero => intro c i hi; omega
  | succ n ih =>
      intro c i hi
      cases i with
      | zero => simp [ratioSteps]
      | succ j =>
          rw [ratioSteps, List.getD_cons_succ, ih (c + ss) j (by omega)]
          congr 1
          push_cast
          ring

lemma ratioList_length (nconf : ℕ) (h2 : 2 ≤ nconf) : (ratioList nconf).length = nconf := by
  simp [ratioList, ratioSteps_length]
  omega

lemma ratioList_getD_zero (nconf : ℕ) : (ratioList nconf).getD 0 0 = 0 := rfl

lemma ratioList_getD_last (nconf : ℕ) (h2 : 2 ≤ nconf) :
    (ratioList nconf).getD (nconf - 1) 0 = 0 := by
  obtain ⟨k, hk⟩ : ∃ k, nconf - 1 = k + 1 := ⟨nconf - 2, by omega⟩
  rw [ratioList, hk, List.getD_cons_succ]
  rw [List.getD_append_right _ _ _ _ (by rw [ratioSteps_length]; omega)]
  rw [ratioSteps_length]
  rw [show k - (nconf - 2) = 0 from by omega]
  rfl

lemma ratioList_getD_mid (nconf : ℕ) (h2 : 2 ≤ nconf) (s : ℕ) (hs1 : 1 ≤ s)
    (hs2 : s ≤ nconf - 2) :
    (ratioList nconf).getD s 0 = ratioFold ((s : ℚ) * (2 / ((nconf : ℚ) - 1))) := by
  obtain ⟨j, rfl⟩ : ∃ j, s = j + 1 := ⟨s - 1, by omega⟩
  rw [ratioList, List.getD_cons_succ]
  rw [List.getD_append _ _ _ _ (by rw [ratioSteps_length]; omega)]
  rw [ratioSteps_getD _ _ _ j (by omega)]
  congr 1
  have hc : ((nconf - 2 : ℕ) : ℚ) = (nconf : ℚ) - 2 := by
    push_cast [Nat.cast_sub h2]
    ring
  rw [hc]
  push_cast
  ring

lemma ratioFold_pos {x : ℚ} (h0 : 0 < x) (h2 : x < 2) : 0 < ratioFold x := by
  unfold ratioFold
  split <;> linarith

lemma ratioFold_le_one {x : ℚ} (h0 : 0 ≤ x) : ratioFold x ≤ 1 := by
  unfold ratioFold
  split
  · linarith
  · linarith [not_le.mp (by assumption : ¬ (1 : ℚ) ≤ x)]

lemma ratioFold_ge {ss x : ℚ} (hx : ss ≤ x) (hx2 : x + ss ≤ 2) : ss ≤ ratioFold x := by
  unfold ratioFold
  split <;> linarith

lemma ratioFold_two_sub {x : ℚ} (h0 : 0 < x) (h2 : x < 2) :
    ratioFold (2 - x) = ratioFold x := by
  unfold ratioFold
  rcases lt_trichotomy x 1 with h | h | h
  · rw [if_pos (by linarith : (1 : ℚ) ≤ 2 - x), if_neg (by linarith : ¬ (1 : ℚ) ≤ x)]
    ring
  · norm_num [h]
  · rw [if_neg (by linarith : ¬ (1 : ℚ) ≤ 2 - x), if_pos (by linarith : (1 : ℚ) ≤ x)]

lemma halfCond_iff (nconf s : ℕ) : ((s : ℚ) ≤ (nconf : ℚ) / 2) ↔ 2 * s ≤ nconf := by
  rw [le_div_iff₀ (by norm_num : (0 : ℚ) < 2)]
  rw [show ((s : ℚ) * 2) = ((2 * s : ℕ) : ℚ) by push_cast; ring]
  exact Nat.cast_le

/-! ### Claim C1: schedule lengths and endpoints -/

/-- Claim C1 is false at `nconf = 2`: with `tbar_left = tbar_right = 1` the
Python test `step <= nconf / 2` is true at the last index (`1 <= 1.0`), so
the last time is produced by the first-half zero-ratio branch and equals `0`,
not `tbar_left + tbar_right = 2`. -/
theorem claim_C1_cex : (time_steps 1 1 1 1 0 0 2).1.getD 1 0 ≠ 1 + 1 := by
  have h1 : (time_steps 1 1 1 1 0 0 2).1.getD 1 0 = 0 := by
    simp only [time_steps, timesList]
    rw [getD_map_range _ 2 1 (by norm_num) 0]
    rw [show (ratioList 2).getD 1 0 = 0 from rfl]
    simp only [timeOfStep]
    rw [if_pos (by norm_num : ((1 : ℕ) : ℚ) ≤ ((2 : ℕ) : ℚ) / 2)]
    simp
  rw [h1]
  norm_num

/-- Claim C1, corrected to `nconf ≥ 3`: the times and energies returned by
`time_steps` both have length `nconf`, the first time is `0`, and the last
time is `tbar_left + tbar_right`.  (At `nconf = 2` the length and first-time
parts still hold but the last time is `0`, see the counterexample.) -/
theorem claim_C1 (tbar_left tbar_right fc_left fc_right energy_left energy_right : ℝ)
    (nconf : ℕ) (h : 3 ≤ nconf) :
    (time_steps tbar_left tbar_right fc_left fc_right energy_left energy_right nconf).1.length
        = nconf ∧
    (time_steps tbar_left tbar_right fc_left fc_right energy_left energy_right nconf).2.length
        = nconf ∧
    (time_steps tbar_left tbar_right fc_left fc_right energy_left energy_right nconf).1.getD
        0 0 = 0 ∧
    (time_steps tbar_left tbar_right fc_left fc_right energy_left energy_right nconf).1.getD
        (nconf - 1) 0 = tbar_left + tbar_right := by
  refine ⟨by simp [time_steps, timesList], by simp [time_steps, energiesList], ?_, ?_⟩
  · simp only [time_steps, timesList]
    rw [getD_map_range _ nconf 0 (by omega) 0]
    rw [ratioList_getD_zero]
    simp only [timeOfStep]
    rw [if_pos (by positivity : ((0 : ℕ) : ℚ) ≤ (nconf : ℚ) / 2)]
    simp
  · simp only [time_steps, timesList]
    rw [getD_map_range _ nconf (nconf - 1) (by omega) 0]
    rw [ratioList_getD_last nconf (by omega)]
    simp only [timeOfStep]
    rw [if_neg (by
      rw [halfCond_iff]
      omega)]
    simp

/-- Claim C1 witness at `nconf = 3`. -/
theorem claim_C1_witness :
    (time_steps 1 1 1 1 0 0 3).1.length = 3 ∧
    (time_steps 1 1 1 1 0 0 3).2.length = 3 ∧
    (time_steps 1 1 1 1 0 0 3).1.getD 0 0 = 0 ∧
    (time_steps 1 1 1 1 0 0 3).1.getD (3 - 1) 0 = 1 + 1 :=
  claim_C1 1 1 1 1 0 0 3 (by norm_num)

/-! ### Claim C5: symmetry of the time schedule -/

lemma ratio_mid_odd (m : ℕ) (hm : 1 ≤ m) (s : ℕ) (hs1 : 1 ≤ s) (hs2 : s ≤ 2 * m - 1) :
    (ratioList (2 * m + 1)).getD s 0 = ratioFold ((s : ℚ) / (m : ℚ)) := by
  rw [ratioList_getD_mid (2 * m + 1) (by omega) s hs1 (by omega)]
  congr 1
  have hm0 : ((m : ℚ)) ≠ 0 := by
    have h1 : (1 : ℚ) ≤ (m : ℚ) := by exact_mod_cast hm
    linarith
  push_cast
  field_simp
  ring

lemma c5_aux (fc tbar : ℝ) (hfc : 0 < fc) (htb : tbar = 7 / fc) (m : ℕ) (hm : 1 ≤ m)
    (i : ℕ) (him : i ≤ m) :
    (time_steps tbar tbar fc fc 0 0 (2 * m + 1)).1.getD i 0 +
      (time_steps tbar tbar fc fc 0 0 (2 * m + 1)).1.getD (2 * m - i) 0 = tbar + tbar := by
  have hmQ : (0 : ℚ) < (m : ℚ) := by exact_mod_cast Nat.lt_of_lt_of_le Nat.zero_lt_one hm
  simp only [time_steps, timesList]
  rw [getD_map_range _ _ i (by omega) 0, getD_map_range _ _ (2 * m - i) (by omega) 0]
  by_cases hi0 : i = 0
  · subst hi0
    rw [ratioList_getD_zero]
    rw [show (2 * m - 0) = (2 * m + 1) - 1 from by omega, ratioList_getD_last _ (by omega)]
    simp only [timeOfStep]
    rw [if_pos (by rw [halfCond_iff]; omega :
      (((0 : ℕ) : ℚ) ≤ ((2 * m + 1 : ℕ) : ℚ) / 2))]
    rw [if_neg (by rw [halfCond_iff]; omega :
      ¬ ((((2 * m + 1 - 1 : ℕ)) : ℚ) ≤ ((2 * m + 1 : ℕ) : ℚ) / 2))]
    simp
  · have hi1 : 1 ≤ i := by omega
    by_cases him' : i = m
    · rw [him']
      rw [show 2 * m - m = m from by omega]
      rw [ratio_mid_odd m hm m hm (by omega)]
      have hr1 : ratioFold ((m : ℚ) / (m : ℚ)) = 1 := by
        rw [div_self (ne_of_gt hmQ)]
        norm_num [ratioFold]
      rw [hr1]
      simp only [timeOfStep]
      rw [if_pos (by rw [halfCond_iff]; omega :
        (((m : ℕ) : ℚ) ≤ ((2 * m + 1 : ℕ) : ℚ) / 2))]
      rw [if_neg (by norm_num : ¬ (1 : ℚ) = 0)]
      rw [show (((1 : ℚ) : ℝ)) = 1 from by norm_num, Real.log_one, htb]
      norm_num
    · have him2 : i < m := by omega
      rw [ratio_mid_odd m hm i hi1 (by omega), ratio_mid_odd m hm (2 * m - i) (by omega)
        (by omega)]
      have hx0 : (0 : ℚ) < (i : ℚ) / (m : ℚ) := by
        apply div_pos _ hmQ
        exact_mod_cast Nat.lt_of_lt_of_le Nat.zero_lt_one hi1
      have hx2 : (i : ℚ) / (m : ℚ) < 2 := by
        rw [div_lt_iff₀ hmQ]
        have : (i : ℚ) < (m : ℚ) := by exact_mod_cast him2
        linarith
      have hsym : ((2 * m - i : ℕ) : ℚ) / (m : ℚ) = 2 - (i : ℚ) / (m : ℚ) := by
        have hcast : ((2 * m - i : ℕ) : ℚ) = 2 * (m : ℚ) - (i : ℚ) := by
          push_cast [Nat.cast_sub (by omega : i ≤ 2 * m)]
          ring
        rw [hcast]
        field_simp
      rw [hsym, ratioFold_two_sub hx0 hx2]
      have hrpos : 0 < ratioFold ((i : ℚ) / (m : ℚ)) := ratioFold_pos hx0 hx2
      simp only [timeOfStep]
      rw [if_pos (by rw [halfCond_iff]; omega :
        (((i : ℕ) : ℚ) ≤ ((2 * m + 1 : ℕ) : ℚ) / 2))]
      rw [if_neg (by rw [halfCond_iff]; omega :
        ¬ ((((2 * m - i : ℕ)) : ℚ) ≤ ((2 * m + 1 : ℕ) : ℚ) / 2))]
      rw [if_neg (ne_of_gt hrpos), if_neg (ne_of_gt hrpos)]
      ring

/-- Claim C5 is false as stated: at `nconf = 3` with
`fc_left = fc_right = 1`, `tbar_left = tbar_right = 1` and zero energies,
the midpoint time is `(7 + ln 1) / 1 = 7`, so
`times[1] + times[nconf-1-1] = 14 ≠ tbar_left + tbar_right = 2`.  The
symmetry of the midpoint pair forces the relation `tbar = 7 / fc`, which the
claim does not assume. -/
theorem claim_C5_cex :
    (time_steps 1 1 1 1 0 0 3).1.getD 1 0 + (time_steps 1 1 1 1 0 0 3).1.getD 1 0
      ≠ 1 + 1 := by
  have h1 : (time_steps 1 1 1 1 0 0 3).1.getD 1 0 = 7 := by
    simp only [time_steps, timesList]
    rw [getD_map_range _ 3 1 (by norm_num) 0]
    rw [show (ratioList 3).getD 1 0 = 1 from by
      rw [ratioList_getD_mid 3 (by norm_num) 1 le_rfl (by norm_num)]
      norm_num [ratioFold]]
    simp only [timeOfStep]
    rw [if_pos (by rw [halfCond_iff]; omega : (((1 : ℕ) : ℚ) ≤ ((3 : ℕ) : ℚ) / 2))]
    rw [if_neg (by norm_num : ¬ (1 : ℚ) = 0)]
    norm_num
  rw [h1]
  norm_num

/-- Claim C5, corrected: the time schedule is symmetric about its midpoint
for odd conformation counts `nconf = 2m + 1 ≥ 3` when additionally
`tbar = 7 / fc` (the relation produced by `time_to_transition_state`):
`times[i] + times[nconf-1-i] = tbar_left + tbar_right` for every index.
For even `nconf` the midpoint pair both take the first-half branch (the
Python test `step <= nconf / 2` is inclusive), and without `tbar = 7 / fc`
the self-paired midpoint `times[m] = 7 / fc` breaks symmetry, as the
counterexample shows. -/
theorem claim_C5 (fc tbar : ℝ) (hfc : 0 < fc) (htb : tbar = 7 / fc) (m : ℕ)
    (hm : 1 ≤ m) (i : ℕ) (hi : i < 2 * m + 1) :
    (time_steps tbar tbar fc fc 0 0 (2 * m + 1)).1.getD i 0 +
      (time_steps tbar tbar fc fc 0 0 (2 * m + 1)).1.getD (2 * m - i) 0 =
      tbar + tbar := by
  by_cases him : i ≤ m
  · exact c5_aux fc tbar hfc htb m hm i him
  · have hj : 2 * m - i ≤ m := by omega
    have h := c5_aux fc tbar hfc htb m hm (2 * m - i) hj
    rw [show 2 * m - (2 * m - i) = i from by omega] at h
    rw [add_comm]
    exact h

/-- Claim C5 witness: `m = 1` (`nconf = 3`), `fc = 7`, `tbar = 1`, `i = 1`. -/
theorem claim_C5_witness :
    (time_steps 1 1 7 7 0 0 (2 * 1 + 1)).1.getD 1 0 +
      (time_steps 1 1 7 7 0 0 (2 * 1 + 1)).1.getD (2 * 1 - 1) 0 = 1 + 1 :=
  claim_C5 7 1 (by norm_num) (by norm_num) 1 le_rfl 1 (by norm_num)

/-! ### Claim C2: monotonicity of the time schedule -/

lemma timeOfStep_first_zero (tL tR fL fR : ℝ) (nconf step : ℕ)
    (hcond : 2 * step ≤ nconf) :
    timeOfStep tL tR fL fR nconf step 0 = 0 := by
  simp only [timeOfStep]
  rw [if_pos ((halfCond_iff nconf step).mpr hcond)]
  simp

lemma timeOfStep_first_pos (tL tR fL fR : ℝ) (nconf step : ℕ) (r : ℚ)
    (hcond : 2 * step ≤ nconf) (hr : r ≠ 0) :
    timeOfStep tL tR fL fR nconf step r = (7 + Real.log (r : ℝ)) / fL := by
  simp only [timeOfStep]
  rw [if_pos ((halfCond_iff nconf step).mpr hcond), if_neg hr]

lemma timeOfStep_second_zero (tL tR fL fR : ℝ) (nconf step : ℕ)
    (hcond : ¬ 2 * step ≤ nconf) :
    timeOfStep tL tR fL fR nconf step 0 = tL + tR := by
  simp only [timeOfStep]
  rw [if_neg (fun hc => hcond ((halfCond_iff nconf step).mp hc))]
  simp

lemma timeOfStep_second_pos (tL tR fL fR : ℝ) (nconf step : ℕ) (r : ℚ)
    (hcond : ¬ 2 * step ≤ nconf) (hr : r ≠ 0) :
    timeOfStep tL tR fL fR nconf step r = (tL + tR) - (7 + Real.log (r : ℝ)) / fR := by
  simp only [timeOfStep]
  rw [if_neg (fun hc => hcond ((halfCond_iff nconf step).mp hc)), if_neg hr]

/-- Claim C2 is false as stated: with `nconf = 4`,
`fc_left = fc_right = 1` and `tbar_left = tbar_right = 1` (all positive, as
the claim requires), `times[2] = 7 + ln(2/3) > 2 = times[3]`, so the
schedule decreases between indices 2 and 3.  Monotonicity needs the relation
`tbar = 7 / fc` between each side's time and force constant, which the claim
does not assume. -/
theorem claim_C2_cex :
    ¬ ((time_steps 1 1 1 1 0 0 4).1.getD 2 0 ≤ (time_steps 1 1 1 1 0 0 4).1.getD 3 0) := by
  have h2 : (time_steps 1 1 1 1 0 0 4).1.getD 2 0 = (7 + Real.log ((2/3 : ℚ) : ℝ)) / 1 := by
    simp only [time_steps, timesList]
    rw [getD_map_range _ 4 2 (by norm_num) 0]
    rw [show (ratioList 4).getD 2 0 = 2/3 from by
      rw [ratioList_getD_mid 4 (by norm_num) 2 (by norm_num) (by norm_num)]
      norm_num [ratioFold]]
    exact timeOfStep_first_pos 1 1 1 1 4 2 (2/3) (by norm_num) (by norm_num)
  have h3 : (time_steps 1 1 1 1 0 0 4).1.getD 3 0 = 1 + 1 := by
    simp only [time_steps, timesList]
    rw [getD_map_range _ 4 3 (by norm_num) 0]
    rw [show (ratioList 4).getD 3 0 = 0 from ratioList_getD_last 4 (by norm_num)]
    exact timeOfStep_second_zero 1 1 1 1 4 3 (by norm_num)
  rw [h2, h3]
  push_neg
  have hcast : (((2/3 : ℚ)) : ℝ) = 2/3 := by norm_num
  have h32 : Real.log ((3 : ℝ)/2) ≤ 1/2 := by
    have := Real.log_le_sub_one_of_pos (by norm_num : (0:ℝ) < 3/2)
    linarith
  have hinv : Real.log ((2:ℝ)/3) = - Real.log ((3:ℝ)/2) := by
    rw [show ((2:ℝ)/3) = ((3:ℝ)/2)⁻¹ by norm_num, Real.log_inv]
  rw [hcast]
  rw [div_one]
  linarith

set_option maxHeartbeats 1000000 in
/-- Claim C2, corrected: the time schedule is monotonically non-decreasing
provided, in addition to positive force constants, each side's time obeys
`tbar = 7 / fc` (the relation produced by `time_to_transition_state`) and
`nconf` is small enough that the smallest nonzero ratio `2 / (nconf - 1)`
is at least `exp (-7)` (otherwise the first interior time
`(7 + ln ratio) / fc` is negative).  For free positive `tbar` the claim is
false, see the counterexample. -/
theorem claim_C2 (fc_left fc_right energy_left energy_right : ℝ)
    (hL : 0 < fc_left) (hR : 0 < fc_right) (nconf : ℕ) (hn : 2 ≤ nconf)
    (hsize : (nconf : ℝ) - 1 ≤ 2 * Real.exp 7) (i : ℕ) (hi : i + 1 < nconf) :
    (time_steps (7 / fc_left) (7 / fc_right) fc_left fc_right energy_left energy_right
        nconf).1.getD i 0 ≤
      (time_steps (7 / fc_left) (7 / fc_right) fc_left fc_right energy_left energy_right
        nconf).1.getD (i + 1) 0 := by
  have hnQ : (2 : ℚ) ≤ (nconf : ℚ) := by exact_mod_cast hn
  have hd : (0 : ℚ) < (nconf : ℚ) - 1 := by linarith
  have hsQpos : (0 : ℚ) < 2 / ((nconf : ℚ) - 1) := by positivity
  have hdR : (0 : ℝ) < (nconf : ℝ) - 1 := by
    have h2R : (2 : ℝ) ≤ (nconf : ℝ) := by exact_mod_cast hn
    linarith
  have hsQR : Real.exp (-7) ≤ ((2 / ((nconf : ℚ) - 1) : ℚ) : ℝ) := by
    have hcast : (((2 / ((nconf : ℚ) - 1) : ℚ)) : ℝ) = 2 / ((nconf : ℝ) - 1) := by
      push_cast
      ring
    rw [hcast, Real.exp_neg, inv_eq_one_div, div_le_div_iff (Real.exp_pos 7) hdR]
    nlinarith [hsize]
  have hmid : ∀ s : ℕ, 1 ≤ s → s ≤ nconf - 2 →
      (ratioList nconf).getD s 0 = ratioFold ((s : ℚ) * (2 / ((nconf : ℚ) - 1))) ∧
      0 < ratioFold ((s : ℚ) * (2 / ((nconf : ℚ) - 1))) ∧
      ratioFold ((s : ℚ) * (2 / ((nconf : ℚ) - 1))) ≤ 1 ∧
      2 / ((nconf : ℚ) - 1) ≤ ratioFold ((s : ℚ) * (2 / ((nconf : ℚ) - 1))) := by
    intro s hs1 hs2
    have hs1Q : (1 : ℚ) ≤ (s : ℚ) := by exact_mod_cast hs1
    have hsd : (s : ℚ) ≤ (nconf : ℚ) - 2 := by
      have h1 : ((s : ℕ) : ℚ) ≤ ((nconf - 2 : ℕ) : ℚ) := by exact_mod_cast hs2
      have h2 : ((nconf - 2 : ℕ) : ℚ) = (nconf : ℚ) - 2 := by
        push_cast [Nat.cast_sub hn]
        ring
      rw [h2] at h1
      exact h1
    have hx0 : (0 : ℚ) < (s : ℚ) * (2 / ((nconf : ℚ) - 1)) := by
      apply mul_pos _ hsQpos
      linarith
    have hx2 : (s : ℚ) * (2 / ((nconf : ℚ) - 1)) < 2 := by
      rw [mul_div_assoc', div_lt_iff₀ hd]
      linarith
    refine ⟨ratioList_getD_mid nconf hn s hs1 hs2, ratioFold_pos hx0 hx2,
      ratioFold_le_one (le_of_lt hx0), ?_⟩
    apply ratioFold_ge (le_mul_of_one_le_left (le_of_lt hsQpos) hs1Q)
    have hstep : ((s : ℚ) + 1) * (2 / ((nconf : ℚ) - 1)) ≤ 2 := by
      rw [mul_div_assoc', div_le_iff₀ hd]
      linarith
    nlinarith [hstep]
  have hlogle : ∀ r : ℚ, 0 < r → r ≤ 1 → Real.log (r : ℝ) ≤ 0 := by
    intro r h0 h1
    exact Real.log_nonpos (by exact_mod_cast le_of_lt h0) (by exact_mod_cast h1)
  have hlogge : ∀ r : ℚ, 0 < r → 2 / ((nconf : ℚ) - 1) ≤ r → -7 ≤ Real.log (r : ℝ) := by
    intro r h0 hge
    rw [Real.le_log_iff_exp_le (by exact_mod_cast h0 : (0 : ℝ) < (r : ℝ))]
    refine le_trans hsQR ?_
    exact_mod_cast hge
  have hlogmono : ∀ r r' : ℚ, 0 < r → r ≤ r' →
      Real.log (r : ℝ) ≤ Real.log (r' : ℝ) := by
    intro r r' h0 hle
    exact Real.log_le_log (by exact_mod_cast h0) (by exact_mod_cast hle)
  simp only [time_steps, timesList]
  rw [getD_map_range _ _ i (by omega) 0, getD_map_range _ _ (i + 1) (by omega) 0]
  by_cases hB : 2 * (i + 1) ≤ nconf
  · by_cases hi0 : i = 0
    · subst hi0
      rw [ratioList_getD_zero, timeOfStep_first_zero _ _ _ _ _ _ (by omega)]
      by_cases h1last : nconf = 2
      · have hr1 : (ratioList nconf).getD 1 0 = 0 := by
          rw [show (1 : ℕ) = nconf - 1 from by omega]
          exact ratioList_getD_last nconf hn
        rw [hr1, timeOfStep_first_zero _ _ _ _ _ _ (by omega)]
      · obtain ⟨heq, hpos, hle1, hge⟩ := hmid 1 le_rfl (by omega)
        rw [heq, timeOfStep_first_pos _ _ _ _ _ _ _ (by omega) (ne_of_gt hpos)]
        apply div_nonneg _ (le_of_lt hL)
        have hl7 := hlogge _ hpos hge
        linarith
    · have hii : 1 ≤ i := by omega
      have hi2 : i + 1 ≤ nconf - 2 := by omega
      obtain ⟨heqi, hposi, hle1i, hgei⟩ := hmid i hii (by omega)
      obtain ⟨heqi1, hposi1, hle1i1, hgei1⟩ := hmid (i + 1) (by omega) hi2
      rw [heqi, heqi1, timeOfStep_first_pos _ _ _ _ _ _ _ (by omega) (ne_of_gt hposi),
        timeOfStep_first_pos _ _ _ _ _ _ _ (by omega) (ne_of_gt hposi1)]
      rw [div_le_div_right hL]
      have hmono : ratioFold ((i : ℚ) * (2 / ((nconf : ℚ) - 1))) ≤
          ratioFold (((i + 1 : ℕ) : ℚ) * (2 / ((nconf : ℚ) - 1))) := by
        have hBQ : 2 * ((i : ℚ) + 1) ≤ (nconf : ℚ) := by exact_mod_cast hB
        have hcast1 : ((i + 1 : ℕ) : ℚ) = (i : ℚ) + 1 := by push_cast; ring
        have hia : (i : ℚ) * (2 / ((nconf : ℚ) - 1)) < 1 := by
          rw [mul_div_assoc', div_lt_iff₀ hd]
          linarith
        rw [hcast1]
        unfold ratioFold
        rw [if_neg (by linarith : ¬ (1 : ℚ) ≤ (i : ℚ) * (2 / ((nconf : ℚ) - 1)))]
        split
        · have h21 : (2 * (i : ℚ) + 1) * (2 / ((nconf : ℚ) - 1)) ≤ 2 := by
            rw [mul_div_assoc', div_le_iff₀ hd]
            linarith
          nlinarith [h21]
        · nlinarith [hsQpos]
      have hlm := hlogmono _ _ hposi hmono
      linarith
  · by_cases hC : 2 * i ≤ nconf
    · have hii : 1 ≤ i := by omega
      obtain ⟨heqi, hposi, hle1i, hgei⟩ := hmid i hii (by omega)
      have hleft : timeOfStep (7 / fc_left) (7 / fc_right) fc_left fc_right nconf i
          ((ratioList nconf).getD i 0) ≤ 7 / fc_left := by
        rw [heqi, timeOfStep_first_pos _ _ _ _ _ _ _ hC (ne_of_gt hposi)]
        rw [div_le_div_right hL]
        have hl0 := hlogle _ hposi hle1i
        linarith
      have hright : 7 / fc_left ≤ timeOfStep (7 / fc_left) (7 / fc_right) fc_left
          fc_right nconf (i + 1) ((ratioList nconf).getD (i + 1) 0) := by
        by_cases hlast : i + 1 = nconf - 1
        · have hr1 : (ratioList nconf).getD (i + 1) 0 = 0 := by
            rw [show i + 1 = nconf - 1 from hlast]
            exact ratioList_getD_last nconf hn
          rw [hr1, timeOfStep_second_zero _ _ _ _ _ _ hB]
          have h7R : 0 ≤ 7 / fc_right := by positivity
          linarith
        · obtain ⟨heqi1, hposi1, hle1i1, hgei1⟩ := hmid (i + 1) (by omega) (by omega)
          rw [heqi1, timeOfStep_second_pos _ _ _ _ _ _ _ hB (ne_of_gt hposi1)]
          have hlog := hlogle _ hposi1 hle1i1
          have hdivle : (7 + Real.log
              ((ratioFold (((i + 1 : ℕ) : ℚ) * (2 / ((nconf : ℚ) - 1)))) : ℝ)) / fc_right
              ≤ 7 / fc_right := by
            rw [div_le_div_right hR]
            linarith
          linarith
      exact le_trans hleft hright
    · have hii : 1 ≤ i := by omega
      obtain ⟨heqi, hposi, hle1i, hgei⟩ := hmid i hii (by omega)
      by_cases hlast : i + 1 = nconf - 1
      · have hr1 : (ratioList nconf).getD (i + 1) 0 = 0 := by
          rw [show i + 1 = nconf - 1 from hlast]
          exact ratioList_getD_last nconf hn
        rw [hr1, timeOfStep_second_zero _ _ _ _ _ _ hB,
          heqi, timeOfStep_second_pos _ _ _ _ _ _ _ hC (ne_of_gt hposi)]
        have hlog := hlogge _ hposi hgei
        have hnn : 0 ≤ (7 + Real.log
            ((ratioFold ((i : ℚ) * (2 / ((nconf : ℚ) - 1)))) : ℝ)) / fc_right := by
          apply div_nonneg _ (le_of_lt hR)
          linarith
        linarith
      · obtain ⟨heqi1, hposi1, hle1i1, hgei1⟩ := hmid (i + 1) (by omega) (by omega)
        rw [heqi, heqi1, timeOfStep_second_pos _ _ _ _ _ _ _ hC (ne_of_gt hposi),
          timeOfStep_second_pos _ _ _ _ _ _ _ hB (ne_of_gt hposi1)]
        have hanti : ratioFold (((i + 1 : ℕ) : ℚ) * (2 / ((nconf : ℚ) - 1))) ≤
            ratioFold ((i : ℚ) * (2 / ((nconf : ℚ) - 1))) := by
          have hCQ : (nconf : ℚ) < 2 * (i : ℚ) := by
            have hCN : nconf < 2 * i := by omega
            exact_mod_cast hCN
          have hcast1 : ((i + 1 : ℕ) : ℚ) = (i : ℚ) + 1 := by push_cast; ring
          have hia : (1 : ℚ) ≤ (i : ℚ) * (2 / ((nconf : ℚ) - 1)) := by
            rw [mul_div_assoc', le_div_iff₀ hd]
            linarith
          rw [hcast1]
          unfold ratioFold
          rw [if_pos hia, if_pos (by nlinarith [hsQpos] :
            (1 : ℚ) ≤ ((i : ℚ) + 1) * (2 / ((nconf : ℚ) - 1)))]
          nlinarith [hsQpos]
        have hlogm := hlogmono _ _ hposi1 hanti
        have hdivle : (7 + Real.log
            ((ratioFold (((i + 1 : ℕ) : ℚ) * (2 / ((nconf : ℚ) - 1)))) : ℝ)) / fc_right ≤
            (7 + Real.log ((ratioFold ((i : ℚ) * (2 / ((nconf : ℚ) - 1)))) : ℝ)) / fc_right := by
          rw [div_le_div_right hR]
          linarith
        linarith

/-- Claim C2 witness: `fc_left = fc_right = 7`, `tbar_left = tbar_right = 1`,
`nconf = 3`, first pair of indices. -/
theorem claim_C2_witness :
    (time_steps (7 / 7) (7 / 7) 7 7 0 0 3).1.getD 0 0 ≤
      (time_steps (7 / 7) (7 / 7) 7 7 0 0 3).1.getD 1 0 :=
  claim_C2 7 7 0 0 (by norm_num) (by norm_num) 3 (by norm_num)
    (by push_cast; nlinarith [Real.one_le_exp (by norm_num : (0 : ℝ) ≤ 7)]) 0 (by norm_num)

/-! ### Claim C6: trajectory endpoints -/

lemma trajStep_at_zero {n : ℕ} (tbar_left tbar_right tf : ℝ) (hL : 0 < tbar_left)
    (eval1 eval2 : Fin n → ℝ) (evec1 evec2 : Matrix (Fin n) (Fin n) ℝ)
    (work_left work_right coord_left coord_right : Fin n → ℝ) :
    trajStep tbar_left tbar_right tf eval1 eval2 evec1 evec2 work_left work_right
      coord_left coord_right 0 = coord_left := by
  unfold trajStep
  rw [if_pos hL]
  have hw : trajWeight tbar_left tbar_right tf eval1 eval2 (0 : ℝ) = fun _ => 0 := by
    funext i
    unfold trajWeight
    rw [if_pos hL]
    by_cases h : eval1 i < 0.000001
    · rw [if_pos h, zero_div]
    · rw [if_neg h, mul_zero, Real.sinh_zero, zero_div]
  rw [hw]
  simp

lemma trajStep_at_tf {n : ℕ} (tbar_left tbar_right : ℝ) (hR : 0 < tbar_right)
    (eval1 eval2 : Fin n → ℝ) (evec1 evec2 : Matrix (Fin n) (Fin n) ℝ)
    (work_left work_right coord_left coord_right : Fin n → ℝ) :
    trajStep tbar_left tbar_right (tbar_left + tbar_right) eval1 eval2 evec1 evec2
      work_left work_right coord_left coord_right (tbar_left + tbar_right) =
      coord_right := by
  unfold trajStep
  rw [if_neg (by linarith : ¬ tbar_left + tbar_right < tbar_left)]
  have hw : trajWeight tbar_left tbar_right (tbar_left + tbar_right) eval1 eval2
      (tbar_left + tbar_right) = fun _ => 0 := by
    funext i
    unfold trajWeight
    rw [if_neg (by linarith : ¬ tbar_left + tbar_right < tbar_left)]
    by_cases h : eval2 i < 0.000001
    · rw [if_pos h, sub_self, zero_div]
    · rw [if_neg h, sub_self, mul_zero, Real.sinh_zero, zero_div, neg_zero]
  rw [hw]
  simp

/-- Claim C6: when the time series starts at `0` and ends at
`tf = tbar_left + tbar_right` (both `tbar` positive), the first trajectory
entry equals `coord_left` and the last equals `coord_right`: the diagonal
weight is `0` in every mode dimension at `t = 0` (left side) and at `t = tf`
(right side), so the projected term vanishes. -/
theorem claim_C6 {n : ℕ} (work : (Fin n → ℝ) → (Fin n → ℝ) → (Fin n → ℝ))
    (tbar_left tbar_right fc_left fc_right : ℝ)
    (hL : 0 < tbar_left) (hR : 0 < tbar_right)
    (eval_left eval_right : Fin n → ℝ) (evec_left evec_right : Matrix (Fin n) (Fin n) ℝ)
    (coord_left coord_right : Fin n → ℝ) (t_series : List ℝ)
    (hhead : t_series.head? = some 0)
    (hlast : t_series.getLast? = some (tbar_left + tbar_right)) :
    (mkTransition work tbar_left tbar_right fc_left fc_right eval_left eval_right
        evec_left evec_right coord_left coord_right t_series).trajectory_coord.head? =
      some coord_left ∧
    (mkTransition work tbar_left tbar_right fc_left fc_right eval_left eval_right
        evec_left evec_right coord_left coord_right t_series).trajectory_coord.getLast? =
      some coord_right := by
  constructor
  · simp only [mkTransition]
    rw [List.head?_map, hhead, Option.map_some']
    exact congrArg some (trajStep_at_zero tbar_left tbar_right (tbar_left + tbar_right)
      hL _ _ _ _ _ _ _ _)
  · simp only [mkTransition]
    rw [List.getLast?_map, hlast, Option.map_some']
    exact congrArg some (trajStep_at_tf tbar_left tbar_right hR _ _ _ _ _ _ _ _)

/-- Claim C6 witness: one dimension, identity eigenvectors, `tbar = 1` on
both sides, time series `[0, 2]`. -/
theorem claim_C6_witness :
    (mkTransition (@workDisplacement 1) 1 1 1 1 (fun _ => 1) (fun _ => 1) 1 1
        (fun _ => 0) (fun _ => 5) [0, 2]).trajectory_coord.head? = some (fun _ => 0) ∧
    (mkTransition (@workDisplacement 1) 1 1 1 1 (fun _ => 1) (fun _ => 1) 1 1
        (fun _ => 0) (fun _ => 5) [0, 2]).trajectory_coord.getLast? = some (fun _ => 5) :=
  claim_C6 workDisplacement 1 1 1 1 (by norm_num) (by norm_num) (fun _ => 1) (fun _ => 1)
    1 1 (fun _ => 0) (fun _ => 5) [0, 2] rfl
    (by rw [show ([0, 2] : List ℝ).getLast? = some 2 from rfl]; norm_num)

/-! ### Claim C4: the constructor and the caller's arrays -/

/-- Claim C4 is false as stated: constructing a `Transition` whose left
eigenvalue array contains an entry below `1e-6` (here `5e-7`) writes `0`
into the caller's array (`self.eval1[i] = 0` aliases `eval_left`), so the
eigenvalue data is modified in place. -/
theorem claim_C4_cex :
    (mkTransition (@workDisplacement 1) 1 1 1 1 (fun _ => 1 / 2000000)
        (fun _ => 1) 1 1 (fun _ => 0) (fun _ => 0) []).eval1 ≠
      (fun _ => 1 / 2000000) := by
  intro h
  have h0 := congrFun h 0
  simp only [mkTransition, clampedEval] at h0
  rw [if_pos (by norm_num : (1 / 2000000 : ℝ) < 0.000001)] at h0
  norm_num at h0

/-- Claim C4, corrected: constructing a `Transition` never modifies the
eigenvector matrices or the coordinate vectors, but it clamps every entry of
the caller's eigenvalue arrays that is below `1e-6` to `0` in place; the
eigenvalue arrays are returned unchanged exactly when every such entry is
already `0`. -/
theorem claim_C4 {n : ℕ} (work : (Fin n → ℝ) → (Fin n → ℝ) → (Fin n → ℝ))
    (tbar_left tbar_right fc_left fc_right : ℝ)
    (eval_left eval_right : Fin n → ℝ) (evec_left evec_right : Matrix (Fin n) (Fin n) ℝ)
    (coord_left coord_right : Fin n → ℝ) (t_series : List ℝ)
    (h1 : ∀ i, eval_left i < 0.000001 → eval_left i = 0)
    (h2 : ∀ i, eval_right i < 0.000001 → eval_right i = 0) :
    (mkTransition work tbar_left tbar_right fc_left fc_right eval_left eval_right
        evec_left evec_right coord_left coord_right t_series).eval1 = eval_left ∧
    (mkTransition work tbar_left tbar_right fc_left fc_right eval_left eval_right
        evec_left evec_right coord_left coord_right t_series).eval2 = eval_right ∧
    (mkTransition work tbar_left tbar_right fc_left fc_right eval_left eval_right
        evec_left evec_right coord_left coord_right t_series).evec1 = evec_left ∧
    (mkTransition work tbar_left tbar_right fc_left fc_right eval_left eval_right
        evec_left evec_right coord_left coord_right t_series).evec2 = evec_right ∧
    (mkTransition work tbar_left tbar_right fc_left fc_right eval_left eval_right
        evec_left evec_right coord_left coord_right t_series).coord_left = coord_left ∧
    (mkTransition work tbar_left tbar_right fc_left fc_right eval_left eval_right
        evec_left evec_right coord_left coord_right t_series).coord_right = coord_right := by
  refine ⟨?_, ?_, rfl, rfl, rfl, rfl⟩
  · funext i
    simp only [mkTransition, clampedEval]
    by_cases h : eval_left i < 0.000001
    · rw [if_pos h, h1 i h]
    · rw [if_neg h]
  · funext i
    simp only [mkTransition, clampedEval]
    by_cases h : eval_right i < 0.000001
    · rw [if_pos h, h2 i h]
    · rw [if_neg h]

/-- Claim C4 witness: all eigenvalues `1 ≥ 1e-6`, so nothing is clamped and
all six arrays are unchanged. -/
theorem claim_C4_witness :
    (mkTransition (@workDisplacement 1) 1 1 1 1 (fun _ => 1) (fun _ => 1) 1 1
        (fun _ => 0) (fun _ => 5) []).eval1 = (fun _ => 1) ∧
    (mkTransition (@workDisplacement 1) 1 1 1 1 (fun _ => 1) (fun _ => 1) 1 1
        (fun _ => 0) (fun _ => 5) []).eval2 = (fun _ => 1) ∧
    (mkTransition (@workDisplacement 1) 1 1 1 1 (fun _ => 1) (fun _ => 1) 1 1
        (fun _ => 0) (fun _ => 5) []).evec1 = 1 ∧
    (mkTransition (@workDisplacement 1) 1 1 1 1 (fun _ => 1) (fun _ => 1) 1 1
        (fun _ => 0) (fun _ => 5) []).evec2 = 1 ∧
    (mkTransition (@workDisplacement 1) 1 1 1 1 (fun _ => 1) (fun _ => 1) 1 1
        (fun _ => 0) (fun _ => 5) []).coord_left = (fun _ => 0) ∧
    (mkTransition (@workDisplacement 1) 1 1 1 1 (fun _ => 1) (fun _ => 1) 1 1
        (fun _ => 0) (fun _ => 5) []).coord_right = (fun _ => 5) :=
  claim_C4 workDisplacement 1 1 1 1 (fun _ => 1) (fun _ => 1) 1 1 (fun _ => 0)
    (fun _ => 5) [] (fun i h => by norm_num at h) (fun i h => by norm_num at h)

/-! ### Claim C7: identical end states -/

open Matrix

lemma aRightDiag_symm (tbar : ℝ) (e : ℝ) :
    aRightDiag tbar (tbar + tbar) e = -(bLeftDiag tbar e) := by
  unfold aRightDiag bLeftDiag
  rw [show tbar - (tbar + tbar) = -tbar from by ring]
  rw [show e * -tbar = -(e * tbar) from by ring]
  by_cases h1 : e < 0.000001
  · rw [if_pos h1, if_pos h1, div_neg]
  · rw [if_neg h1, if_neg h1]
    by_cases h2 : e * tbar < 700 ∧ -700 < e * tbar
    · rw [if_pos ⟨by linarith [h2.1], by linarith [h2.2]⟩, if_pos h2]
      rw [Real.cosh_neg, Real.sinh_neg, div_neg]
    · rw [if_neg (fun hc => h2 ⟨by linarith [hc.2], by linarith [hc.1]⟩), if_neg h2]

lemma sRightDiag_symm (tbar : ℝ) (e : ℝ) :
    sRightDiag tbar (tbar + tbar) e = sLeftDiag tbar e := by
  unfold sRightDiag sLeftDiag
  rw [show tbar - (tbar + tbar) = -tbar from by ring]
  rw [show tbar + tbar - tbar = tbar from by ring]
  rw [show e * -tbar = -(e * tbar) from by ring]
  by_cases h1 : e < 0.000001
  · rw [if_pos h1, if_pos h1, div_neg, neg_neg]
  · rw [if_neg h1, if_neg h1]
    by_cases h2 : e * tbar < 700 ∧ -700 < e * tbar
    · rw [if_pos ⟨by linarith [h2.1], by linarith [h2.2]⟩, if_pos h2]
    · rw [if_neg (fun hc => h2 ⟨by linarith [hc.2], by linarith [hc.1]⟩), if_neg h2]

lemma bLeftDiag_ne_zero (tbar : ℝ) (htb : 0 < tbar) (e : ℝ) :
    bLeftDiag tbar e ≠ 0 := by
  unfold bLeftDiag
  by_cases h1 : e < 0.000001
  · rw [if_pos h1]
    exact one_div_ne_zero (ne_of_gt htb)
  · rw [if_neg h1]
    have hepos : (0 : ℝ) < e := lt_of_lt_of_le (by norm_num) (not_lt.mp h1)
    by_cases h2 : e * tbar < 700 ∧ -700 < e * tbar
    · rw [if_pos h2]
      have hx : 0 < e * tbar := mul_pos hepos htb
      have hsinh : 0 < Real.sinh (e * tbar) := Real.sinh_pos_iff.mpr hx
      exact ne_of_gt (div_pos (mul_pos hepos (Real.cosh_pos _)) hsinh)
    · rw [if_neg h2]
      exact ne_of_gt hepos

set_option maxHeartbeats 1000000 in
/-- Claim C7: when both end states are identical (same coordinates, same
eigenvalues, same orthonormal eigenvector matrix) and the timing is
symmetric (`tbar_left = tbar_right = tbar > 0`), the transition-state
coordinate equals the common input coordinate and the two actions are
equal.  The proof establishes that `den1 - den2 = U * diag(2b) * Uᵀ` is
invertible (the `np.linalg.inv` call succeeds), with explicit inverse
`U * diag((2b)⁻¹) * Uᵀ`. -/
theorem claim_C7 {n : ℕ} (work : (Fin n → ℝ) → (Fin n → ℝ) → (Fin n → ℝ))
    (tbar fc_left fc_right : ℝ) (htb : 0 < tbar)
    (ev : Fin n → ℝ) (U : Matrix (Fin n) (Fin n) ℝ) (hU : U * Uᵀ = 1)
    (x0 : Fin n → ℝ) (t_series : List ℝ) :
    (mkTransition work tbar tbar fc_left fc_right ev ev U U x0 x0 t_series).xbar = x0 ∧
    (mkTransition work tbar tbar fc_left fc_right ev ev U U x0 x0 t_series).action_left
      = (mkTransition work tbar tbar fc_left fc_right ev ev U U x0 x0
          t_series).action_right := by
  have hUtU : Uᵀ * U = 1 := Matrix.mul_eq_one_comm.mp hU
  have haeq : (fun i => aRightDiag tbar (tbar + tbar) (ev i)) =
      (fun i => -(bLeftDiag tbar (ev i))) := funext fun i => aRightDiag_symm tbar (ev i)
  have hden2 : denRight tbar (tbar + tbar) ev U = -(denLeft tbar ev U) := by
    unfold denRight denLeft
    rw [haeq, show (Matrix.diagonal fun i => -(bLeftDiag tbar (ev i))) =
      -(Matrix.diagonal fun i => bLeftDiag tbar (ev i)) from
      (Matrix.diagonal_neg _).symm]
    rw [Matrix.mul_neg, Matrix.neg_mul]
  have hdensum : denLeft tbar ev U - denRight tbar (tbar + tbar) ev U =
      U * Matrix.diagonal (fun i => bLeftDiag tbar (ev i) + bLeftDiag tbar (ev i)) * Uᵀ := by
    rw [hden2, sub_neg_eq_add]
    show U * Matrix.diagonal (fun i => bLeftDiag tbar (ev i)) * Uᵀ +
        U * Matrix.diagonal (fun i => bLeftDiag tbar (ev i)) * Uᵀ = _
    rw [← Matrix.diagonal_add, Matrix.mul_add, Matrix.add_mul]
  have hbsum_ne : ∀ i, bLeftDiag tbar (ev i) + bLeftDiag tbar (ev i) ≠ 0 := by
    intro i hc
    exact bLeftDiag_ne_zero tbar htb (ev i) (by linarith)
  have hright : (U * Matrix.diagonal (fun i => bLeftDiag tbar (ev i) +
        bLeftDiag tbar (ev i)) * Uᵀ) *
      (U * Matrix.diagonal (fun i => (bLeftDiag tbar (ev i) +
        bLeftDiag tbar (ev i))⁻¹) * Uᵀ) = 1 := by
    simp only [Matrix.mul_assoc]
    rw [← Matrix.mul_assoc Uᵀ U _, hUtU, Matrix.one_mul]
    rw [← Matrix.mul_assoc (Matrix.diagonal _) (Matrix.diagonal _) Uᵀ,
      Matrix.diagonal_mul_diagonal]
    rw [show (Matrix.diagonal fun i => (bLeftDiag tbar (ev i) + bLeftDiag tbar (ev i)) *
        (bLeftDiag tbar (ev i) + bLeftDiag tbar (ev i))⁻¹) = (1 : Matrix (Fin n) (Fin n) ℝ)
      from by
        rw [show (fun i => (bLeftDiag tbar (ev i) + bLeftDiag tbar (ev i)) *
            (bLeftDiag tbar (ev i) + bLeftDiag tbar (ev i))⁻¹) =
            (fun _ : Fin n => (1 : ℝ)) from funext fun i => mul_inv_cancel₀ (hbsum_ne i)]
        exact Matrix.diagonal_one]
    rw [Matrix.one_mul, hU]
  have hsymm : (denLeft tbar ev U - denRight tbar (tbar + tbar) ev U)ᵀ =
      denLeft tbar ev U - denRight tbar (tbar + tbar) ev U := by
    rw [hdensum, Matrix.transpose_mul, Matrix.transpose_mul, Matrix.transpose_transpose,
      Matrix.diagonal_transpose, Matrix.mul_assoc]
  have hinv : (denLeft tbar ev U - denRight tbar (tbar + tbar) ev U)⁻¹ =
      U * Matrix.diagonal (fun i => (bLeftDiag tbar (ev i) +
        bLeftDiag tbar (ev i))⁻¹) * Uᵀ := by
    rw [hdensum]
    exact Matrix.inv_eq_right_inv hright
  have hmul : (denLeft tbar ev U - denRight tbar (tbar + tbar) ev U) *
      (denLeft tbar ev U - denRight tbar (tbar + tbar) ev U)⁻¹ = 1 := by
    rw [hinv, hdensum]
    exact hright
  constructor
  · show xbarOf tbar tbar ev ev U U x0 x0 = x0
    show ((denLeft tbar ev U *ᵥ x0) - (denRight tbar (tbar + tbar) ev U *ᵥ x0)) ᵥ*
      (denLeft tbar ev U - denRight tbar (tbar + tbar) ev U)⁻¹ = x0
    rw [← Matrix.sub_mulVec]
    rw [show (denLeft tbar ev U - denRight tbar (tbar + tbar) ev U) *ᵥ x0 =
      x0 ᵥ* (denLeft tbar ev U - denRight tbar (tbar + tbar) ev U)ᵀ from
      (Matrix.vecMul_transpose _ x0).symm]
    rw [Matrix.vecMul_vecMul, hsymm, hmul, Matrix.vecMul_one]
  · show 0.5 * (work (xbarOf tbar tbar ev ev U U x0 x0) x0 ⬝ᵥ
        (sLeftMatrix tbar ev U *ᵥ work (xbarOf tbar tbar ev ev U U x0 x0) x0)) =
      0.5 * (work (xbarOf tbar tbar ev ev U U x0 x0) x0 ⬝ᵥ
        (sRightMatrix tbar (tbar + tbar) ev U *ᵥ work (xbarOf tbar tbar ev ev U U x0 x0) x0))
    have hsmat : sRightMatrix tbar (tbar + tbar) ev U = sLeftMatrix tbar ev U := by
      unfold sRightMatrix sLeftMatrix
      rw [show (fun i => sRightDiag tbar (tbar + tbar) (ev i)) =
        (fun i => sLeftDiag tbar (ev i)) from funext fun i => sRightDiag_symm tbar (ev i)]
    rw [hsmat]

/-- Claim C7 witness: one dimension, `U = 1`, eigenvalue `1`, `tbar = 1`,
coordinate `5`. -/
theorem claim_C7_witness :
    (mkTransition (@workDisplacement 1) 1 1 1 1 (fun _ => 1) (fun _ => 1) 1 1
        (fun _ => 5) (fun _ => 5) []).xbar = (fun _ => 5) ∧
    (mkTransition (@workDisplacement 1) 1 1 1 1 (fun _ => 1) (fun _ => 1) 1 1
        (fun _ => 5) (fun _ => 5) []).action_left =
      (mkTransition (@workDisplacement 1) 1 1 1 1 (fun _ => 1) (fun _ => 1) 1 1
        (fun _ => 5) (fun _ => 5) []).action_right :=
  claim_C7 workDisplacement 1 1 1 (by norm_num) (fun _ => 1) 1 (by simp) (fun _ => 5) []

end PathDynamics
